import Mathlib

/-!
Verification of the orchestration core in
src/src/orchestrationapi/orchestration_api.go.

The Go file is embedded shallowly:

* scores (Go float64) are modelled as rationals;
* the collaborator packages that are not part of the source tree
  (controller/scoringmgr, db/helper, db/bolt/system, common/networkhelper,
  orchestrationapi/commandstore, restinterface/client, controller/servicemgr)
  enter as parameters collected in an environment record `Env`;
* Go errors are modelled as `Except String`, the string being err.Error();
* a Go panic (index out of range) is modelled by an `Option` result, `none`
  meaning the function panics;
* the global mutable state (the atomic client counter `orchClientID` and the
  `orcheClients` slot table) is threaded explicitly through `OrchState`;
* calls into collaborators are recorded in an explicit `Effect` list so that
  "collaborator X is never invoked" becomes a statement about that list;
* the concurrency of `gatherDevicesScore` is modelled by a schedule: the
  order in which worker reports reach the collector's channel and the point
  of the event stream at which the 3-second timeout signal is consumed.

`sortByScore` (line 311) calls Go's `sort.Slice`, which is documented as
"not guaranteed to be stable".  It is embedded here as the standard
library's classical introsort for func-based comparators (the algorithm of
the Go releases contemporary with this 2019 repository: a quicksort with
median-of-three pivoting and a duplicate-protection pass, falling back to
heapsort when the depth budget is exhausted and to a gap-6 shell pass
followed by insertion sort on ranges of at most 12 elements).  All loops are
written with structural or fuel recursion so that terms evaluate by `rfl`
and `decide`; every fuel argument is instantiated at its call site with a
value that dominates the Go loop's iteration count.
-/

namespace EdgeOrch

/-- Scores are Go float64 values; modelled as rationals. -/
abbrev Score := ℚ

/-- orchestration_api.go lines 69-72. -/
structure RequestServiceInfo where
  ExecutionType : String
  ExeCmd : List String
deriving DecidableEq, Repr

/-- orchestration_api.go lines 74-78 (the source spells the name Reqeust). -/
structure ReqeustService where
  ServiceName : String
  ServiceInfo : List RequestServiceInfo
deriving DecidableEq, Repr

/-- orchestration_api.go lines 80-83. -/
structure TargetInfo where
  ExecutionType : String
  Target : String
deriving DecidableEq, Repr

/-- The zero value TargetInfo{} of Go. -/
def TargetInfo.zero : TargetInfo := { ExecutionType := "", Target := "" }

/-- orchestration_api.go lines 85-89. -/
structure ResponseService where
  Message : String
  ServiceName : String
  RemoteTargetInfo : TargetInfo
deriving DecidableEq, Repr

/-- orchestration_api.go line 92. -/
def ERROR_NONE : String := "ERROR_NONE"

/-- orchestration_api.go line 94. -/
def SERVICE_NOT_FOUND : String := "SERVICE_NOT_FOUND"

/-- orchestration_api.go line 95. -/
def INTERNAL_SERVER_ERROR : String := "INTERNAL_SERVER_ERROR"

/-- orchestration_api.go line 96. -/
def NOT_ALLOWED_COMMAND : String := "NOT_ALLOWED_COMMAND"

/-- orchestration_api.go lines 55-60. -/
structure deviceScore where
  id : String
  endpoint : String
  score : Score
  execType : String
deriving DecidableEq, Repr

/-- The zero value of deviceScore; Go composite literals leave omitted
fields at their zero value (relevant on the error paths of the workers,
lines 251 and 263, which omit execType). -/
def deviceScore.zero : deviceScore := { id := "", endpoint := "", score := 0, execType := "" }

/-- Modelled from the spec: dbhelper.ExecutionCandidate (package db/helper is
not part of the source tree).  Per spec section 3 it is
"{id, endpoint: ordered list of addresses, supportedExecutionType}"; the
fields and their uses match the accesses cand.Id, cand.ExecType,
cand.Endpoint in orchestration_api.go lines 244-267. -/
structure ExecutionCandidate where
  Id : String
  ExecType : String
  Endpoint : List String
deriving DecidableEq, Repr

/-- The collaborators consumed by the engine, as an explicit parameter
record.  Each field models one external interface of spec section 6;
none of their implementations is part of the source tree. -/
structure Env where
  /-- orcheImpl.Ready, line 42. -/
  Ready : Bool
  /-- commandstore.GetInstance().GetServiceFileName, line 127.  Spec: RegisteredFileName(serviceName) → string. -/
  getServiceFileName : String → String
  /-- helper.GetDeviceInfoWithService, line 201.  Spec: ResolveCandidates. -/
  getDeviceInfoWithService : String → List String → Except String (List ExecutionCandidate)
  /-- sysDBExecutor.Get(sysDB.ID), line 208; on success only info.Value is used.  Spec: LocalIdentity. -/
  sysDBGetValue : Except String String
  /-- networkhelper GetIPs, line 239.  Spec: LocalAddresses; on error the
  collaborator yields no addresses, so candidates are conservatively
  treated as remote (spec section 4.3). -/
  getIPs : Except String (List String)
  /-- orcheEngine.GetScore (scoringmgr, local path), line 256.  Spec: LocalScore(identity). -/
  GetScore : String → Except String Score
  /-- clientAPI.DoGetScoreRemoteDevice, line 258.  Spec: RemoteScore(identity, endpoint). -/
  DoGetScoreRemoteDevice : String → String → Except String Score
  /-- scoringmgr.INVALID_SCORE, line 166: the reserved invalid-score
  sentinel owned by the scoring collaborator (spec section 4.4). -/
  INVALID_SCORE : Score

/-- One collaborator invocation, recorded in program order. -/
inductive Effect where
  | getServiceFileName (serviceName : String)
  | getCandidate (serviceName : String) (execTypes : List String)
  | sysDBGet
  | getIPs
  | scoreLocal (value : String)
  | scoreRemote (value : String) (endpoint : String)
  | execute (endpoint : String) (serviceName : String) (args : List String)
deriving DecidableEq, Repr

/-- Does an effect list contain a dispatch (serviceIns.Execute, line 281)? -/
def dispatched (effs : List Effect) : Bool :=
  effs.any fun e => match e with
    | Effect.execute _ _ _ => true
    | _ => false

/-- Does an effect list contain a candidate-resolver call (line 201)? -/
def resolverCalled (effs : List Effect) : Bool :=
  effs.any fun e => match e with
    | Effect.getCandidate _ _ => true
    | _ => false

/-- Does an effect list contain a scoring call (lines 256/258)? -/
def scoringCalled (effs : List Effect) : Bool :=
  effs.any fun e => match e with
    | Effect.scoreLocal _ => true
    | Effect.scoreRemote _ _ => true
    | _ => false

/-- The process-wide mutable state of the package: the atomic counter
orchClientID (line 100, an int32 starting at -1) and the written slots of
the orcheClients table (line 101; a slot write records the slot index and
the appName stored by addServiceClient, lines 302-309, most recent
first). -/
structure OrchState where
  orchClientID : ℤ
  orcheClients : List (ℕ × String)
deriving DecidableEq, Repr

/-- The initial state of the package, lines 100-101. -/
def OrchState.init : OrchState := { orchClientID := -1, orcheClients := [] }

/-- Two's-complement wrap of atomic.AddInt32, line 136. -/
def int32wrap (n : ℤ) : ℤ := (n + 2 ^ 31) % 2 ^ 32 - 2 ^ 31

end EdgeOrch

namespace EdgeOrch

/-! ## The ranker: sortByScore, line 311-317, i.e. Go sort.Slice

The comparator is func(i, j int) bool { return ds[i].score > ds[j].score }.
Go sorts "ascending" with respect to Less, which here means descending by
score.  Out-of-range index reads (which cannot occur in the algorithm's
actual call tree) are given the harmless value deviceScore.zero. -/

/-- Default element for out-of-range reads. -/
def dflt : deviceScore := deviceScore.zero

/-- Indexed read of the slice. -/
def lget (l : List deviceScore) (i : ℕ) : deviceScore := l.getD i dflt

/-- data.Swap(i, j) of sort.Slice: swap the two slice entries. -/
def lswap (l : List deviceScore) (i j : ℕ) : List deviceScore :=
  if i < l.length ∧ j < l.length then (l.set i (lget l j)).set j (lget l i) else l

/-- data.Less(i, j) of sortByScore: ds[i].score > ds[j].score. -/
def lless (l : List deviceScore) (i j : ℕ) : Prop := (lget l j).score < (lget l i).score

instance (l : List deviceScore) (i j : ℕ) : Decidable (lless l i j) :=
  inferInstanceAs (Decidable (_ < _))

/-- Inner loop of insertionSort: move element j left while it is Less than
its left neighbour and j > a; structural recursion on j. -/
def insertionInner (a : ℕ) : List deviceScore → ℕ → List deviceScore
  | l, 0 => l
  | l, j + 1 =>
    if a ≤ j ∧ lless l (j + 1) j then insertionInner a (lswap l (j + 1) j) j else l

/-- Outer loop of insertionSort over i = a+1 .. b-1; fuel-structural, the
fuel dominates b - i at every call site. -/
def insertionLoop (a b : ℕ) : ℕ → List deviceScore → ℕ → List deviceScore
  | 0, l, _ => l
  | fuel + 1, l, i => if i < b then insertionLoop a b fuel (insertionInner a l i) (i + 1) else l

/-- insertionSort(data, a, b) of Go sort. -/
def insertionSortGo (l : List deviceScore) (a b : ℕ) : List deviceScore :=
  insertionLoop a b b l (a + 1)

/-- The gap-6 shell pass over i = a+6 .. b-1 run before insertion sort on
ranges of at most 12 elements. -/
def shellLoop (b : ℕ) : ℕ → List deviceScore → ℕ → List deviceScore
  | 0, l, _ => l
  | fuel + 1, l, i =>
    if i < b then shellLoop b fuel (if lless l i (i - 6) then lswap l i (i - 6) else l) (i + 1)
    else l

/-- The shell pass of quickSort's small-range branch. -/
def shellPass (l : List deviceScore) (a b : ℕ) : List deviceScore :=
  shellLoop b b l (a + 6)

/-- siftDown(data, lo, hi, first) of Go heapsort; fuel dominates hi - lo. -/
def siftDownGo : ℕ → List deviceScore → ℕ → ℕ → ℕ → List deviceScore
  | 0, l, _, _, _ => l
  | fuel + 1, l, root, hi, first =>
    let child := 2 * root + 1
    if child < hi then
      let child := if child + 1 < hi ∧ lless l (first + child) (first + child + 1)
                   then child + 1 else child
      if lless l (first + root) (first + child) then
        siftDownGo fuel (lswap l (first + root) (first + child)) child hi first
      else l
    else l

/-- Heap construction: siftDown for i = (hi-1)/2 down to 0 (the counter is
the structural argument, offset by one). -/
def heapifyLoop (hi first : ℕ) : ℕ → List deviceScore → List deviceScore
  | 0, l => l
  | i + 1, l => heapifyLoop hi first i (siftDownGo hi l i hi first)

/-- Pop phase: for i = hi-1 down to 0, swap the maximum to position i and
restore the heap. -/
def popLoop (first : ℕ) : ℕ → List deviceScore → List deviceScore
  | 0, l => l
  | i + 1, l => popLoop first i (siftDownGo i (lswap l first (first + i)) 0 i first)

/-- heapSort(data, a, b) of Go sort. -/
def heapSortGo (l : List deviceScore) (a b : ℕ) : List deviceScore :=
  popLoop a (b - a) (heapifyLoop (b - a) a ((b - a - 1) / 2 + 1) l)

/-- medianOfThree(data, m1, m0, m2) of Go sort. -/
def medianOfThree (l : List deviceScore) (m1 m0 m2 : ℕ) : List deviceScore :=
  let l1 := if lless l m1 m0 then lswap l m1 m0 else l
  if lless l1 m2 m1 then
    let l2 := lswap l1 m2 m1
    if lless l2 m1 m0 then lswap l2 m1 m0 else l2
  else l1

/-- The initial advance of index a in doPivot: while a < c and
Less(a, pivot), a++.  Fuel dominates c - a. -/
def advanceA (l : List deviceScore) (pivot c : ℕ) : ℕ → ℕ → ℕ
  | 0, a => a
  | fuel + 1, a => if a < c ∧ lless l a pivot then advanceA l pivot c fuel (a + 1) else a

/-- Partition-loop advance of b: while b < c and not Less(pivot, b), b++. -/
def advanceB (l : List deviceScore) (pivot c : ℕ) : ℕ → ℕ → ℕ
  | 0, b => b
  | fuel + 1, b => if b < c ∧ ¬ lless l pivot b then advanceB l pivot c fuel (b + 1) else b

/-- Partition-loop retreat of c: while b < c and Less(pivot, c-1), c--;
structural on c. -/
def retreatC (l : List deviceScore) (pivot b : ℕ) : ℕ → ℕ
  | 0 => 0
  | c + 1 => if b < c + 1 ∧ lless l pivot c then retreatC l pivot b c else c + 1

/-- The main partition loop of doPivot; fuel dominates c - b. -/
def partitionLoop (pivot : ℕ) : ℕ → List deviceScore → ℕ → ℕ → List deviceScore × ℕ × ℕ
  | 0, l, b, c => (l, b, c)
  | fuel + 1, l, b, c =>
    let b1 := advanceB l pivot c c b
    let c1 := retreatC l pivot b1 c
    if b1 ≥ c1 then (l, b1, c1)
    else partitionLoop pivot fuel (lswap l b1 (c1 - 1)) (b1 + 1) (c1 - 1)

/-- Duplicate-protection retreat of b: while a < b and not Less(b-1, pivot),
b--; structural on b. -/
def protRetreatB (l : List deviceScore) (pivot a : ℕ) : ℕ → ℕ
  | 0 => 0
  | b + 1 => if a < b + 1 ∧ ¬ lless l b pivot then protRetreatB l pivot a b else b + 1

/-- Duplicate-protection advance of a: while a < b and Less(a, pivot), a++. -/
def protAdvanceA (l : List deviceScore) (pivot b : ℕ) : ℕ → ℕ → ℕ
  | 0, a => a
  | fuel + 1, a => if a < b ∧ lless l a pivot then protAdvanceA l pivot b fuel (a + 1) else a

/-- The duplicate-protection loop of doPivot ("data[b <= i < c] = pivot");
returns the slice and the final b.  Fuel dominates b - a. -/
def protectLoop (pivot : ℕ) : ℕ → List deviceScore → ℕ → ℕ → List deviceScore × ℕ
  | 0, l, _, b => (l, b)
  | fuel + 1, l, a, b =>
    let b1 := protRetreatB l pivot a b
    let a1 := protAdvanceA l pivot b1 b1 a
    if a1 ≥ b1 then (l, b1)
    else protectLoop pivot fuel (lswap l a1 (b1 - 1)) (a1 + 1) (b1 - 1)

/-- The duplicate-detection block of doPivot ("If hi-c<3 then there are
duplicates"): when the right segment is suspiciously small, test three
cells for equality to the pivot, growing the pivot-equal middle run and
deciding whether the protect pass must run; m is doPivot's midpoint and
(b, c) the partition loop's resting point. -/
def doPivotStep (l2 : List deviceScore) (lo hi m b c : ℕ) :
    List deviceScore × ℕ × ℕ × Bool :=
  let pivot := lo
  let protect0 := hi - c < 5
  if ¬ protect0 ∧ hi - c < (hi - lo) / 4 then
    let t1 := if ¬ lless l2 pivot (hi - 1) then (lswap l2 c (hi - 1), c + 1, 1) else (l2, c, 0)
    let t2 := if ¬ lless t1.1 (b - 1) pivot then (b - 1, t1.2.2 + 1) else (b, t1.2.2)
    let t3 := if ¬ lless t1.1 m pivot then (lswap t1.1 m (t2.1 - 1), t2.1 - 1, t2.2 + 1)
              else (t1.1, t2.1, t2.2)
    (t3.1, t3.2.1, t1.2.1, decide (t3.2.2 > 1))
  else (l2, b, c, decide protect0)

/-- The tail of doPivot: run the protect pass when asked, then swap the
pivot into the middle and return (data, midlo, midhi). -/
def doPivotFinish (step : List deviceScore × ℕ × ℕ × Bool) (lo : ℕ) :
    List deviceScore × ℕ × ℕ :=
  let fin :=
    if step.2.2.2 then
      let t4 := protectLoop lo step.2.1 step.1 (lo + 1) step.2.1
      (t4.1, t4.2)
    else (step.1, step.2.1)
  (lswap fin.1 lo (fin.2 - 1), fin.2 - 1, step.2.2.1)

/-- The ninther prelude of doPivot: when the range is above 40, Tukey's
median of medians over three triads; otherwise the data unchanged. -/
def pivotPrelude (l : List deviceScore) (lo hi : ℕ) : List deviceScore :=
  if hi - lo > 40 then
    let m := (lo + hi) / 2
    let s := (hi - lo) / 8
    let la := medianOfThree l lo (lo + s) (lo + 2 * s)
    let lb := medianOfThree la m (m - s) (m + s)
    medianOfThree lb (hi - 1) (hi - 1 - s) (hi - 1 - 2 * s)
  else l

/-- doPivot(data, lo, hi) of Go sort: median-of-three (ninther above 40)
pivot selection, two-pointer partition, duplicate detection and the
protect pass; returns (data, midlo, midhi). -/
def doPivot (l : List deviceScore) (lo hi : ℕ) : List deviceScore × ℕ × ℕ :=
  let m := (lo + hi) / 2
  let l1 := medianOfThree (pivotPrelude l lo hi) lo m (hi - 1)
  let pivot := lo
  let a := advanceA l1 pivot (hi - 1) (hi - 1) (lo + 1)
  let t := partitionLoop pivot (hi - 1) l1 a (hi - 1)
  doPivotFinish (doPivotStep t.1 lo hi m t.2.1 t.2.2) lo

/-- The small-range branch of quickSort: a gap-6 shell pass followed by
insertion sort when 1 < b - a ≤ 12. -/
def smallSortGo (l : List deviceScore) (a b : ℕ) : List deviceScore :=
  if b - a > 1 then insertionSortGo (shellPass l a b) a b else l

/-- quickSort(data, a, b, maxDepth) of Go sort; structural on the depth
budget (each iteration of Go's loop decrements maxDepth before pivoting,
and both recursive calls receive the decremented budget). -/
def quickSortGo : List deviceScore → ℕ → ℕ → ℕ → List deviceScore
  | l, a, b, 0 => if b - a > 12 then heapSortGo l a b else smallSortGo l a b
  | l, a, b, d + 1 =>
    if b - a > 12 then
      let t := doPivot l a b
      let l1 := t.1
      let mlo := t.2.1
      let mhi := t.2.2
      if mlo - a < b - mhi then quickSortGo (quickSortGo l1 a mlo d) mhi b d
      else quickSortGo (quickSortGo l1 mhi b d) a mlo d
    else smallSortGo l a b

/-- Bit length, fuel-structural (fuel dominates the bit length). -/
def bitsAux : ℕ → ℕ → ℕ
  | 0, _ => 0
  | fuel + 1, n => if n = 0 then 0 else bitsAux fuel (n / 2) + 1

/-- maxDepth(n) of Go sort: 2 * ceil(lg(n+1)). -/
def maxDepthGo (n : ℕ) : ℕ := 2 * bitsAux n n

/-- sortByScore, lines 311-317: sort.Slice with the descending-score
comparator. -/
def sortByScore (deviceScores : List deviceScore) : List deviceScore :=
  quickSortGo deviceScores 0 deviceScores.length (maxDepthGo deviceScores.length)

end EdgeOrch

namespace EdgeOrch

/-! ## The score aggregator: gatherDevicesScore, lines 204-273

Each candidate gets one worker goroutine (lines 244-268) whose report is a
pure function of the environment; the nondeterminism of the round — the
order in which reports reach the collector's channel and the moment the
3-second timer's signal is consumed relative to them — is a parameter, the
`GatherSchedule`. -/

/-- One event consumed by the collector's select, lines 226-234: either a
worker report from the scores channel or the timeout signal. -/
inductive GEvent where
  | score (s : deviceScore)
  | timeout
deriving DecidableEq, Repr

/-- The collector goroutine, lines 223-237: append each received score and
return once count scores were received; return at once on the timeout
signal.  (The Go loop appends, increments index, and returns when
count == index.) -/
def collectorLoop (count : ℕ) : List GEvent → ℕ → List deviceScore
  | [], _ => []
  | GEvent.score s :: rest, index =>
    if count = index + 1 then [s] else s :: collectorLoop count rest (index + 1)
  | GEvent.timeout :: _, _ => []

/-- isLocalhost, lines 291-300. -/
def isLocalhost (endpoints1 endpoints2 : List String) : Bool :=
  endpoints1.any fun endpoint1 => endpoints2.any fun endpoint2 => endpoint1 = endpoint2

/-- The local addresses used for the is-local test, lines 239-242: a
lookup failure is tolerated and leaves the address list empty. -/
def envLocalhosts (env : Env) : List String :=
  match env.getIPs with
  | Except.ok l => l
  | Except.error _ => []

/-- One worker, lines 244-268: a candidate without endpoints reports score
0 at once (lines 249-253); otherwise the local or the remote scoring call
is made (lines 255-259), an error being absorbed as score 0 (lines
261-265).  Both failure literals omit execType, leaving it at the zero
value "".  Returns the report together with the scoring call made, if
any. -/
def worker (env : Env) (value : String) (localhosts : List String)
    (cand : ExecutionCandidate) : deviceScore × Option Effect :=
  match cand.Endpoint with
  | [] => ({ id := cand.Id, endpoint := "", score := 0, execType := "" }, none)
  | ep0 :: _ =>
    let call : Except String Score × Effect :=
      if isLocalhost cand.Endpoint localhosts
      then (env.GetScore value, Effect.scoreLocal value)
      else (env.DoGetScoreRemoteDevice value ep0, Effect.scoreRemote value ep0)
    match call.1 with
    | Except.error _ => ({ id := cand.Id, endpoint := ep0, score := 0, execType := "" }, some call.2)
    | Except.ok sc => ({ id := cand.Id, endpoint := ep0, score := sc, execType := cand.ExecType }, some call.2)

/-- The nondeterminism of one scoring round: `arrival` lists the indices of
the candidates whose reports reach the collector, in channel order (valid
schedules list pairwise distinct indices below the candidate count), and
`cut` is how many of them the collector can consume before the timeout
signal; reports listed after the cut model workers that outlive the time
budget. -/
structure GatherSchedule where
  arrival : List ℕ
  cut : ℕ
deriving DecidableEq, Repr

/-- A schedule is valid for n candidates if its arrival order lists
pairwise distinct worker indices below n (each worker sends exactly
once). -/
def GatherSchedule.Valid (sched : GatherSchedule) (n : ℕ) : Prop :=
  sched.arrival.Nodup ∧ ∀ i ∈ sched.arrival, i < n

instance (sched : GatherSchedule) (n : ℕ) : Decidable (sched.Valid n) :=
  inferInstanceAs (Decidable (_ ∧ _))

/-- The event stream a schedule delivers to the collector: the reports
arriving before the timeout signal, the signal, then the late reports. -/
def scheduleEvents (reports : List deviceScore) (sched : GatherSchedule) : List GEvent :=
  let arrived := (sched.arrival.filterMap fun i => reports.get? i).map GEvent.score
  arrived.take sched.cut ++ [GEvent.timeout] ++ arrived.drop sched.cut

/-- gatherDevicesScore, lines 204-273.  Fails the whole round, with no
worker launched, if the host identity lookup fails (lines 208-212);
otherwise resolves the local addresses (a failure is tolerated and leaves
the list empty, lines 239-242), launches one worker per candidate and
collects until every candidate reported or the timeout fired.  Returns the
collected scores and the collaborator calls of the round (in launch order
for the workers). -/
def gatherDevicesScore (env : Env) (candidates : List ExecutionCandidate)
    (sched : GatherSchedule) : List deviceScore × List Effect :=
  match env.sysDBGetValue with
  | Except.error _ => ([], [Effect.sysDBGet])
  | Except.ok value =>
    let results := candidates.map (worker env value (envLocalhosts env))
    let reports := results.map Prod.fst
    let scores := collectorLoop candidates.length (scheduleEvents reports sched) 0
    (scores, Effect.sysDBGet :: Effect.getIPs :: results.filterMap Prod.snd)

/-- getExecCmds, lines 190-198: first execution variant whose type equals
the target, otherwise the error "Not Found". -/
def getExecCmds (execType : String) (requestServiceInfos : List RequestServiceInfo) :
    Except String (List String) :=
  match requestServiceInfos with
  | [] => Except.error "Not Found"
  | info :: rest =>
    if execType = info.ExecutionType then Except.ok info.ExeCmd else getExecCmds execType rest

/-- The validation loop of RequestService, lines 125-134: for each variant
whose type is native or android, compare ExeCmd[0] with the registered
file name.  Returns none when Go panics (ExeCmd[0] on an empty command
list), some (true, effs) when a disallowed variant stops the loop, and
some (false, effs) when the loop runs through; effs records the command
store lookups made. -/
def validateLoop (env : Env) (serviceName : String) :
    List RequestServiceInfo → Option (Bool × List Effect)
  | [] => some (false, [])
  | info :: rest =>
    if info.ExecutionType = "native" ∨ info.ExecutionType = "android" then
      match info.ExeCmd with
      | [] => none
      | c0 :: _ =>
        if c0 ≠ env.getServiceFileName serviceName then
          some (true, [Effect.getServiceFileName serviceName])
        else
          match validateLoop env serviceName rest with
          | none => none
          | some (b, effs) => some (b, Effect.getServiceFileName serviceName :: effs)
    else validateLoop env serviceName rest

/-- RequestService, lines 114-188, as a pure transition: given the
environment, the package state, the request and the schedule of the
scoring round, produce the response, the new package state and the list of
collaborator calls; `none` models a Go panic.  The notification listener
goroutine (line 141) performs no collaborator call and is not modelled
beyond the slot write of addServiceClient. -/
def RequestService (env : Env) (st : OrchState) (serviceInfo : ReqeustService)
    (sched : GatherSchedule) : Option (ResponseService × OrchState × List Effect) :=
  if env.Ready = false then
    some ({ Message := INTERNAL_SERVER_ERROR, ServiceName := serviceInfo.ServiceName,
            RemoteTargetInfo := TargetInfo.zero }, st, [])
  else
    match validateLoop env serviceInfo.ServiceName serviceInfo.ServiceInfo with
    | none => none
    | some (true, effs) =>
      some ({ Message := NOT_ALLOWED_COMMAND, ServiceName := serviceInfo.ServiceName,
              RemoteTargetInfo := TargetInfo.zero }, st, effs)
    | some (false, effs) =>
      let newID := int32wrap (st.orchClientID + 1)
      if newID < 0 ∨ 1024 ≤ newID then none
      else
        let st1 : OrchState := { orchClientID := newID,
                                 orcheClients := (newID.toNat, serviceInfo.ServiceName) :: st.orcheClients }
        let executionTypes := serviceInfo.ServiceInfo.map RequestServiceInfo.ExecutionType
        let effs1 := effs ++ [Effect.getCandidate serviceInfo.ServiceName executionTypes]
        match env.getDeviceInfoWithService serviceInfo.ServiceName executionTypes with
        | Except.error e =>
          some ({ Message := e, ServiceName := serviceInfo.ServiceName,
                  RemoteTargetInfo := TargetInfo.zero }, st1, effs1)
        | Except.ok candidates =>
          let gathered := gatherDevicesScore env candidates sched
          let deviceScores := sortByScore gathered.1
          let effs2 := effs1 ++ gathered.2
          match deviceScores with
          | [] =>
            some ({ Message := SERVICE_NOT_FOUND, ServiceName := serviceInfo.ServiceName,
                    RemoteTargetInfo := TargetInfo.zero }, st1, effs2)
          | top :: _ =>
            if top.score = env.INVALID_SCORE then
              some ({ Message := SERVICE_NOT_FOUND, ServiceName := serviceInfo.ServiceName,
                      RemoteTargetInfo := TargetInfo.zero }, st1, effs2)
            else
              match getExecCmds top.execType serviceInfo.ServiceInfo with
              | Except.error e =>
                some ({ Message := e, ServiceName := serviceInfo.ServiceName,
                        RemoteTargetInfo := TargetInfo.zero }, st1, effs2)
              | Except.ok args =>
                some ({ Message := ERROR_NONE, ServiceName := serviceInfo.ServiceName,
                        RemoteTargetInfo := { ExecutionType := top.execType, Target := top.endpoint } },
                      st1,
                      effs2 ++ [Effect.execute top.endpoint serviceInfo.ServiceName args])

end EdgeOrch

namespace EdgeOrch

/-! ## Statement-side definitions and concrete instances -/

/-- The report (first component) of a worker. -/
def workerReport (env : Env) (value : String) (cand : ExecutionCandidate) : deviceScore :=
  (worker env value (envLocalhosts env) cand).1

/-- Descending order of two reports by score. -/
def scoreGE (x y : deviceScore) : Prop := y.score ≤ x.score

instance (x y : deviceScore) : Decidable (scoreGE x y) :=
  inferInstanceAs (Decidable (_ ≤ _))

/-- A score list is sorted descending when every entry's score dominates
the scores of all later entries. -/
def SortedByScoreDesc (l : List deviceScore) : Prop := l.Pairwise scoreGE

instance (l : List deviceScore) : Decidable (SortedByScoreDesc l) :=
  inferInstanceAs (Decidable (List.Pairwise _ _))

/-- Modelled from the spec: insertion step of the stable descending sort
that spec section 4.4 ascribes to the ranker (an element is placed before
the first entry whose score does not exceed its own, hence after all
earlier entries of equal score). -/
def specStableInsert (x : deviceScore) : List deviceScore → List deviceScore
  | [] => [x]
  | y :: ys => if y.score ≤ x.score then x :: y :: ys else y :: specStableInsert x ys

/-- Modelled from the spec: the stable descending sort of spec section 4.4
("Stable sort of the collected DeviceScore list by score, descending",
equal scores keeping their arrival order).  Compared against the
source-derived `sortByScore`. -/
def specStableSort (l : List deviceScore) : List deviceScore :=
  l.foldr specStableInsert []

/-- Shorthand for building score reports in concrete instances. -/
def mkds (i : String) (s : Score) : deviceScore :=
  { id := i, endpoint := "", score := s, execType := "" }

/-- Seven reports whose last six scores are equal: small enough for the
shell-pass/insertion branch of sort.Slice, large enough for the gap-6
shell pass to move the last equal-scored entry across the other five. -/
def ex7 : List deviceScore :=
  [mkds "a" 1, mkds "b" 5, mkds "c" 5, mkds "d" 5, mkds "e" 5, mkds "f" 5, mkds "g" 5]

/-- Thirteen reports, already sorted descending with a seven-way tie in
front: large enough for the quicksort branch, whose median-of-three pivot
placement swaps the tied entries at positions 0 and 6. -/
def ex13 : List deviceScore :=
  [mkds "A" 5, mkds "B" 5, mkds "C" 5, mkds "D" 5, mkds "E" 5, mkds "F" 5, mkds "G" 5,
   mkds "h" 4, mkds "i" 3, mkds "j" 2, mkds "k" 1, mkds "l" 0, mkds "m" (-1)]

/-- A benign environment used by concrete instances; individual instances
override the fields they exercise. -/
def envBase : Env := {
  Ready := true,
  getServiceFileName := fun _ => "binfoo",
  getDeviceInfoWithService := fun _ _ => Except.ok [],
  sysDBGetValue := Except.ok "selfvalue",
  getIPs := Except.ok ["10.0.0.1"],
  GetScore := fun _ => Except.ok 9,
  DoGetScoreRemoteDevice := fun _ _ => Except.ok 5,
  INVALID_SCORE := -1 }

/-- The remote-only candidate of the scoring-error scenario (claim C2 /
spec scenario B). -/
def c2cand : ExecutionCandidate := { Id := "dev1", ExecType := "container", Endpoint := ["1.2.3.4"] }

/-- Environment of the scoring-error scenario: one remote candidate whose
remote scoring call errors; the sentinel is not 0. -/
def c2env : Env := { envBase with
  getDeviceInfoWithService := fun _ _ => Except.ok [c2cand],
  DoGetScoreRemoteDevice := fun _ _ => Except.error "rpc failed" }

/-- Request of the scoring-error scenario: one container variant. -/
def c2req : ReqeustService := {
  ServiceName := "foo",
  ServiceInfo := [{ ExecutionType := "container", ExeCmd := ["run", "foo"] }] }

/-- Schedule of the scoring-error scenario: the single report reaches the
collector before the timeout. -/
def c2sched : GatherSchedule := { arrival := [0], cut := 1 }

/-- A ready-state request whose native variant carries an empty command
list: RequestService indexes ExeCmd[0] on it (claim C10). -/
def c10req : ReqeustService := {
  ServiceName := "foo",
  ServiceInfo := [{ ExecutionType := "native", ExeCmd := [] }] }

/-- A request with one native variant whose command head differs from the
registered file name, preceded by an allowed native variant (claim C3). -/
def c3req : ReqeustService := {
  ServiceName := "foo",
  ServiceInfo := [{ ExecutionType := "rest", ExeCmd := ["irrelevant"] },
                  { ExecutionType := "native", ExeCmd := ["binevil", "x"] }] }

/-- A request whose native variant precedes, with an empty command list, a
disallowed native variant: the validation loop panics before reaching the
disallowed variant (counterexample input of claim C3). -/
def c3panicReq : ReqeustService := {
  ServiceName := "foo",
  ServiceInfo := [{ ExecutionType := "native", ExeCmd := [] },
                  { ExecutionType := "native", ExeCmd := ["binevil"] }] }

/-- The environment of a not-ready engine. -/
def envNotReady : Env := { envBase with Ready := false }

/-- Scores are descending on the index range [a, b) of a slice. -/
def SortedRange (l : List deviceScore) (a b : ℕ) : Prop :=
  ∀ i j, a ≤ i → i < j → j < b → (lget l j).score ≤ (lget l i).score

/-- What one pass of an in-place sorting routine may do to the slice
within index range [a, b): preserve the length, leave every position
outside [a, b) unchanged, and have every position inside [a, b) keep
satisfying any property that all of [a, b) satisfied before (the entries
of the range are only rearranged within it). -/
def RangeOp (l l' : List deviceScore) (a b : ℕ) : Prop :=
  l'.length = l.length ∧
  (∀ k, k < a ∨ b ≤ k → lget l' k = lget l k) ∧
  ∀ P : deviceScore → Prop, (∀ k, a ≤ k → k < b → P (lget l k)) →
    ∀ k, a ≤ k → k < b → P (lget l' k)

/-- The environment of the C4 witness: the resolver yields no candidate. -/
def c4env : Env := { envBase with getDeviceInfoWithService := fun _ _ => Except.ok [] }

/-- The environment of the C7 witness: identity lookup fails, one
candidate resolved. -/
def c7env : Env := { envBase with
  sysDBGetValue := Except.error "db closed",
  getDeviceInfoWithService := fun _ _ => Except.ok [c2cand] }

/-- A valid schedule used by the C8/C9 witnesses: both reports arrive, in
reversed order, before the timeout. -/
def sched9 : GatherSchedule := { arrival := [1, 0], cut := 5 }

/-- Two endpoint-less candidates for the C8/C9 witnesses. -/
def cands9 : List ExecutionCandidate :=
  [{ Id := "devA", ExecType := "container", Endpoint := [] },
   { Id := "devB", ExecType := "native", Endpoint := [] }]

/-- Membership of index i in the binary-heap subtree rooted at root
(children of p are 2p+1 and 2p+2). -/
def InTree (root i : ℕ) : Prop :=
  if h : i ≤ root then i = root else InTree root ((i - 1) / 2)
termination_by i
decreasing_by omega

/-- Heap order on every subtree edge except those leaving the root. -/
def HeapExcept (l : List deviceScore) (first hi root : ℕ) : Prop :=
  ∀ p c, InTree root p → p ≠ root → c < hi → (c = 2 * p + 1 ∨ c = 2 * p + 2) →
    (lget l (first + p)).score ≤ (lget l (first + c)).score

/-- What siftDown guarantees: same length, a permutation, positions
outside the subtree untouched, full heap order on the subtree, and
preservation of pointwise properties across the subtree. -/
def SiftConcl (l l' : List deviceScore) (first hi root : ℕ) : Prop :=
  l'.length = l.length ∧ l'.Perm l ∧
  (∀ j, (∀ q, InTree root q → q < hi → j ≠ first + q) → lget l' j = lget l j) ∧
  (∀ p c, InTree root p → c < hi → (c = 2 * p + 1 ∨ c = 2 * p + 2) →
    (lget l' (first + p)).score ≤ (lget l' (first + c)).score) ∧
  (∀ P : deviceScore → Prop, (∀ q, InTree root q → q < hi → P (lget l (first + q))) →
    ∀ q, InTree root q → q < hi → P (lget l' (first + q)))

end EdgeOrch

namespace EdgeOrch

/-! ## Helper lemmas -/

theorem dispatched_append (l1 l2 : List Effect) :
    dispatched (l1 ++ l2) = (dispatched l1 || dispatched l2) := by
  simp [dispatched, List.any_append]

theorem resolverCalled_append (l1 l2 : List Effect) :
    resolverCalled (l1 ++ l2) = (resolverCalled l1 || resolverCalled l2) := by
  simp [resolverCalled, List.any_append]

theorem dispatched_eq_false_of_shape (l : List Effect)
    (h : ∀ e ∈ l, ∀ ep sn args, e ≠ Effect.execute ep sn args) : dispatched l = false := by
  simp only [dispatched, List.any_eq_false]
  intro e he
  cases e with
  | execute ep sn args => exact absurd rfl (h _ he ep sn args)
  | getServiceFileName s => simp
  | getCandidate s t => simp
  | sysDBGet => simp
  | getIPs => simp
  | scoreLocal v => simp
  | scoreRemote v ep => simp

/-- The validation loop only records command-store lookups for the
requested service. -/
theorem validateLoop_shape (env : Env) (n : String) :
    ∀ infos res, validateLoop env n infos = some res →
      ∃ k, res.2 = List.replicate k (Effect.getServiceFileName n) := by
  intro infos
  induction infos with
  | nil =>
    intro res h
    simp only [validateLoop, Option.some.injEq] at h
    exact ⟨0, by simp [← h]⟩
  | cons info rest ih =>
    intro res h
    simp only [validateLoop] at h
    by_cases ht : info.ExecutionType = "native" ∨ info.ExecutionType = "android"
    · simp only [if_pos ht] at h
      match hcmd : info.ExeCmd with
      | [] => rw [hcmd] at h; exact absurd h (by simp)
      | c0 :: cs =>
        rw [hcmd] at h
        by_cases hne : c0 ≠ env.getServiceFileName n
        · simp only [if_pos hne, Option.some.injEq] at h
          exact ⟨1, by simp [← h]⟩
        · simp only [if_neg hne] at h
          match hrec : validateLoop env n rest with
          | none => rw [hrec] at h; exact absurd h (by simp)
          | some (b, effs) =>
            rw [hrec] at h
            obtain ⟨k, hk⟩ := ih (b, effs) hrec
            simp only [Option.some.injEq] at h
            refine ⟨k + 1, ?_⟩
            rw [← h]
            simp only at hk
            simp [hk, List.replicate_succ]
    · simp only [if_neg ht] at h
      exact ih res h

/-- Every effect of a scoring round is the identity lookup, the address
lookup, or a scoring call: in particular no dispatch and no resolver
call. -/
theorem gather_effects_shape (env : Env) (cands : List ExecutionCandidate)
    (sched : GatherSchedule) :
    ∀ e ∈ (gatherDevicesScore env cands sched).2,
      e = Effect.sysDBGet ∨ e = Effect.getIPs ∨ (∃ v, e = Effect.scoreLocal v) ∨
        ∃ v ep, e = Effect.scoreRemote v ep := by
  intro e he
  simp only [gatherDevicesScore] at he
  match hsys : env.sysDBGetValue with
  | Except.error msg =>
    rw [hsys] at he
    simp only [List.mem_singleton] at he
    exact Or.inl he
  | Except.ok value =>
    rw [hsys] at he
    simp only [List.mem_cons] at he
    rcases he with h1 | h1 | h1
    · exact Or.inl h1
    · exact Or.inr (Or.inl h1)
    · right; right
      simp only [List.mem_filterMap] at h1
      obtain ⟨res, hres, hsnd⟩ := h1
      simp only [List.mem_map] at hres
      obtain ⟨cand, _, hw⟩ := hres
      rw [← hw] at hsnd
      simp only [worker] at hsnd
      match hep : cand.Endpoint with
      | [] => rw [hep] at hsnd; exact absurd hsnd (by simp)
      | ep0 :: eps =>
        rw [hep] at hsnd
        by_cases hloc : isLocalhost cand.Endpoint (envLocalhosts env)
        · rw [hep] at hloc
          simp only [hloc, if_true] at hsnd
          match hcall : env.GetScore value with
          | Except.error m => rw [hcall] at hsnd; simp at hsnd; exact Or.inl ⟨value, hsnd.symm⟩
          | Except.ok sc => rw [hcall] at hsnd; simp at hsnd; exact Or.inl ⟨value, hsnd.symm⟩
        · rw [hep] at hloc
          simp only [hloc, if_false, Bool.false_eq_true] at hsnd
          match hcall : env.DoGetScoreRemoteDevice value ep0 with
          | Except.error m => rw [hcall] at hsnd; simp at hsnd; exact Or.inr ⟨value, ep0, hsnd.symm⟩
          | Except.ok sc => rw [hcall] at hsnd; simp at hsnd; exact Or.inr ⟨value, ep0, hsnd.symm⟩

theorem gather_no_dispatch (env : Env) (cands : List ExecutionCandidate)
    (sched : GatherSchedule) : dispatched (gatherDevicesScore env cands sched).2 = false := by
  apply dispatched_eq_false_of_shape
  intro e he ep sn args
  rcases gather_effects_shape env cands sched e he with h | h | ⟨v, h⟩ | ⟨v, ep1, h⟩ <;>
    (rw [h]; simp)

theorem dispatched_replicate (k : ℕ) (n : String) :
    dispatched (List.replicate k (Effect.getServiceFileName n)) = false := by
  apply dispatched_eq_false_of_shape
  intro e he ep sn args
  rw [List.eq_of_mem_replicate he]
  simp

theorem resolverCalled_replicate (k : ℕ) (n : String) :
    resolverCalled (List.replicate k (Effect.getServiceFileName n)) = false := by
  simp only [resolverCalled, List.any_eq_false]
  intro e he
  rw [List.eq_of_mem_replicate he]
  simp

end EdgeOrch

namespace EdgeOrch

/-! ## Claim C6: a request while the engine is not ready -/

/-- Claim C6: for every request received while the engine is not ready,
RequestService returns INTERNAL_SERVER_ERROR with the request's service
name and a zero-valued target, the state (client counter and slot table)
is unchanged, and no collaborator is invoked (the effect list is
empty). -/
theorem claimC6_not_ready_no_side_effects (env : Env) (st : OrchState)
    (req : ReqeustService) (sched : GatherSchedule) (h : env.Ready = false) :
    RequestService env st req sched =
      some ({ Message := INTERNAL_SERVER_ERROR, ServiceName := req.ServiceName,
              RemoteTargetInfo := TargetInfo.zero }, st, []) := by
  simp [RequestService, h]

/-- Witness for claim C6 at a concrete not-ready environment. -/
theorem claimC6_witness :
    RequestService envNotReady OrchState.init c2req c2sched =
      some ({ Message := INTERNAL_SERVER_ERROR, ServiceName := c2req.ServiceName,
              RemoteTargetInfo := TargetInfo.zero }, OrchState.init, []) :=
  claimC6_not_ready_no_side_effects envNotReady OrchState.init c2req c2sched rfl

/-! ## Claim C10: ExeCmd[0] on an empty command list -/

/-- Claim C10: the validation step indexes ExeCmd[0] of every native or
android variant without a non-emptiness check; on a ready-state request
whose native variant has an empty command list the Go code panics, i.e.
the embedded RequestService has no defined value (none). -/
theorem claimC10_empty_exe_cmd_panics :
    envBase.Ready = true ∧ RequestService envBase OrchState.init c10req c2sched = none :=
  ⟨rfl, rfl⟩

end EdgeOrch

namespace EdgeOrch

/-! ## More helper lemmas -/

theorem sortByScore_nil : sortByScore [] = [] := rfl

theorem sortByScore_singleton (x : deviceScore) : sortByScore [x] = [x] := rfl

theorem scoringCalled_append (l1 l2 : List Effect) :
    scoringCalled (l1 ++ l2) = (scoringCalled l1 || scoringCalled l2) := by
  simp [scoringCalled, List.any_append]

theorem scoringCalled_replicate (k : ℕ) (n : String) :
    scoringCalled (List.replicate k (Effect.getServiceFileName n)) = false := by
  simp only [scoringCalled, List.any_eq_false]
  intro e he
  rw [List.eq_of_mem_replicate he]
  simp

/-- getExecCmds on a list without a matching variant is the "Not Found"
error. -/
theorem getExecCmds_not_found (t : String) (infos : List RequestServiceInfo)
    (h : ∀ v ∈ infos, t ≠ v.ExecutionType) :
    getExecCmds t infos = Except.error "Not Found" := by
  induction infos with
  | nil => rfl
  | cons info rest ih =>
    simp only [getExecCmds, if_neg (h info (by simp))]
    exact ih fun v hv => h v (by simp [hv])

/-- getExecCmds returns the command line of the first matching variant. -/
theorem getExecCmds_first_match (t : String) (pre : List RequestServiceInfo)
    (v : RequestServiceInfo) (post : List RequestServiceInfo)
    (hpre : ∀ u ∈ pre, t ≠ u.ExecutionType) (hv : t = v.ExecutionType) :
    getExecCmds t (pre ++ v :: post) = Except.ok v.ExeCmd := by
  induction pre with
  | nil => simp [getExecCmds, if_pos hv]
  | cons u rest ih =>
    simp only [List.cons_append, getExecCmds, if_neg (hpre u (by simp))]
    exact ih fun w hw => hpre w (by simp [hw])

end EdgeOrch

namespace EdgeOrch

/-! ## Claim C4: empty or sentinel-topped ranking -/

/-- Claim C4: for every request that reaches the ranking step (engine
ready, validation passed, client slot in range, resolver succeeded), if
the ranked score list is empty or its top score equals the invalid-score
sentinel, RequestService responds SERVICE_NOT_FOUND with a zero-valued
target and performs no dispatch. -/
theorem claimC4_empty_or_sentinel_rank_not_found (env : Env) (st : OrchState)
    (req : ReqeustService) (sched : GatherSchedule) (effs0 : List Effect)
    (candidates : List ExecutionCandidate)
    (hReady : env.Ready = true)
    (hVal : validateLoop env req.ServiceName req.ServiceInfo = some (false, effs0))
    (hID : ¬ (int32wrap (st.orchClientID + 1) < 0 ∨ 1024 ≤ int32wrap (st.orchClientID + 1)))
    (hCand : env.getDeviceInfoWithService req.ServiceName
        (req.ServiceInfo.map RequestServiceInfo.ExecutionType) = Except.ok candidates)
    (hRank : sortByScore (gatherDevicesScore env candidates sched).1 = [] ∨
      ∃ top rest, sortByScore (gatherDevicesScore env candidates sched).1 = top :: rest ∧
        top.score = env.INVALID_SCORE) :
    ∃ st2 effs, RequestService env st req sched =
        some ({ Message := SERVICE_NOT_FOUND, ServiceName := req.ServiceName,
                RemoteTargetInfo := TargetInfo.zero }, st2, effs) ∧
      dispatched effs = false := by
  obtain ⟨k, hk⟩ := validateLoop_shape env req.ServiceName req.ServiceInfo (false, effs0) hVal
  simp only at hk
  have hdisp : dispatched ((effs0 ++ [Effect.getCandidate req.ServiceName
      (req.ServiceInfo.map RequestServiceInfo.ExecutionType)]) ++
      (gatherDevicesScore env candidates sched).2) = false := by
    rw [dispatched_append, dispatched_append, hk, dispatched_replicate, gather_no_dispatch]
    simp [dispatched]
  refine ⟨{ orchClientID := int32wrap (st.orchClientID + 1),
            orcheClients := ((int32wrap (st.orchClientID + 1)).toNat, req.ServiceName) :: st.orcheClients },
          (effs0 ++ [Effect.getCandidate req.ServiceName
            (req.ServiceInfo.map RequestServiceInfo.ExecutionType)]) ++
            (gatherDevicesScore env candidates sched).2, ?_, hdisp⟩
  rcases hRank with hnil | ⟨top, rest, htop, hsent⟩
  · simp only [RequestService, hReady, hVal, hCand, hnil]
    simp [hID]
  · simp only [RequestService, hReady, hVal, hCand, htop]
    simp [hID, hsent]

/-- Witness for claim C4: no candidate at all yields SERVICE_NOT_FOUND
without dispatch. -/
theorem claimC4_witness :
    ∃ st2 effs, RequestService c4env OrchState.init c2req c2sched =
        some ({ Message := SERVICE_NOT_FOUND, ServiceName := c2req.ServiceName,
                RemoteTargetInfo := TargetInfo.zero }, st2, effs) ∧
      dispatched effs = false :=
  claimC4_empty_or_sentinel_rank_not_found c4env OrchState.init c2req c2sched [] []
    rfl rfl (by decide) rfl (Or.inl rfl)

/-! ## Claim C7: host identity lookup failure -/

/-- Claim C7: when the host identity lookup fails, the aggregator returns
an empty score list having launched no scoring work (its only effect is
the identity lookup itself), and a request reaching the scoring stage
consequently fails with SERVICE_NOT_FOUND. -/
theorem claimC7_identity_failure_not_found (env : Env) (st : OrchState)
    (req : ReqeustService) (sched : GatherSchedule) (effs0 : List Effect)
    (candidates : List ExecutionCandidate) (msg : String)
    (hsys : env.sysDBGetValue = Except.error msg)
    (hReady : env.Ready = true)
    (hVal : validateLoop env req.ServiceName req.ServiceInfo = some (false, effs0))
    (hID : ¬ (int32wrap (st.orchClientID + 1) < 0 ∨ 1024 ≤ int32wrap (st.orchClientID + 1)))
    (hCand : env.getDeviceInfoWithService req.ServiceName
        (req.ServiceInfo.map RequestServiceInfo.ExecutionType) = Except.ok candidates) :
    gatherDevicesScore env candidates sched = ([], [Effect.sysDBGet]) ∧
    ∃ st2 effs, RequestService env st req sched =
        some ({ Message := SERVICE_NOT_FOUND, ServiceName := req.ServiceName,
                RemoteTargetInfo := TargetInfo.zero }, st2, effs) ∧
      scoringCalled effs = false := by
  have hg : gatherDevicesScore env candidates sched = ([], [Effect.sysDBGet]) := by
    simp [gatherDevicesScore, hsys]
  refine ⟨hg, ?_⟩
  obtain ⟨k, hk⟩ := validateLoop_shape env req.ServiceName req.ServiceInfo (false, effs0) hVal
  simp only at hk
  refine ⟨{ orchClientID := int32wrap (st.orchClientID + 1),
            orcheClients := ((int32wrap (st.orchClientID + 1)).toNat, req.ServiceName) :: st.orcheClients },
          (effs0 ++ [Effect.getCandidate req.ServiceName
            (req.ServiceInfo.map RequestServiceInfo.ExecutionType)]) ++ [Effect.sysDBGet], ?_, ?_⟩
  · simp only [RequestService, hReady, hVal, hCand, hg]
    simp [hID, sortByScore_nil]
  · rw [scoringCalled_append, scoringCalled_append, hk, scoringCalled_replicate]
    simp [scoringCalled]

/-- Witness for claim C7 at a concrete failing identity store. -/
theorem claimC7_witness :
    gatherDevicesScore c7env [c2cand] c2sched = ([], [Effect.sysDBGet]) ∧
    ∃ st2 effs, RequestService c7env OrchState.init c2req c2sched =
        some ({ Message := SERVICE_NOT_FOUND, ServiceName := c2req.ServiceName,
                RemoteTargetInfo := TargetInfo.zero }, st2, effs) ∧
      scoringCalled effs = false :=
  claimC7_identity_failure_not_found c7env OrchState.init c2req c2sched [] [c2cand]
    "db closed" rfl rfl rfl (by decide) rfl

/-! ## Claim C3: disallowed native command -/

/-- The validation loop stops with true on the first disallowed variant,
provided no native/android variant with an empty command list precedes
it. -/
theorem validateLoop_disallowed (env : Env) (n : String)
    (bad : RequestServiceInfo) (rest : List RequestServiceInfo) (c0 : String)
    (hbadty : bad.ExecutionType = "native" ∨ bad.ExecutionType = "android")
    (hbadcmd : bad.ExeCmd.head? = some c0)
    (hbadne : c0 ≠ env.getServiceFileName n) :
    ∀ pre : List RequestServiceInfo,
      (∀ v ∈ pre, (v.ExecutionType = "native" ∨ v.ExecutionType = "android") → v.ExeCmd ≠ []) →
      ∃ effs, validateLoop env n (pre ++ bad :: rest) = some (true, effs) := by
  intro pre
  induction pre with
  | nil =>
    intro _
    refine ⟨[Effect.getServiceFileName n], ?_⟩
    match hcmd : bad.ExeCmd with
    | [] => rw [hcmd] at hbadcmd; exact absurd hbadcmd (by simp)
    | d0 :: ds =>
      rw [hcmd] at hbadcmd
      simp only [List.head?] at hbadcmd
      injection hbadcmd with hd0
      simp only [List.nil_append, validateLoop, if_pos hbadty, hcmd]
      rw [if_pos (hd0 ▸ hbadne)]
  | cons v pre ih =>
    intro hpre
    have hrec := ih fun u hu => hpre u (by simp [hu])
    obtain ⟨effs, heq⟩ := hrec
    by_cases ht : v.ExecutionType = "native" ∨ v.ExecutionType = "android"
    · match hcmd : v.ExeCmd with
      | [] => exact absurd hcmd (hpre v (by simp) ht)
      | d0 :: ds =>
        by_cases hne : d0 ≠ env.getServiceFileName n
        · refine ⟨[Effect.getServiceFileName n], ?_⟩
          simp only [List.cons_append, validateLoop, if_pos ht, hcmd]
          rw [if_pos hne]
        · refine ⟨Effect.getServiceFileName n :: effs, ?_⟩
          simp only [List.cons_append, validateLoop, if_pos ht, hcmd]
          rw [if_neg hne]
          simp only [List.append_eq]
          rw [heq]
    · refine ⟨effs, ?_⟩
      simp only [List.cons_append, validateLoop, if_neg ht]
      exact heq

/-- Claim C3 (amended): a ready-state request containing a native/android
variant whose command head differs from the registered file name — with no
native/android variant of empty command list preceding it — gets
NOT_ALLOWED_COMMAND with a zero-valued target and unchanged state, and
neither the candidate resolver nor the dispatcher is ever invoked. -/
theorem claimC3_not_allowed_command (env : Env) (st : OrchState)
    (req : ReqeustService) (sched : GatherSchedule)
    (pre : List RequestServiceInfo) (bad : RequestServiceInfo)
    (rest : List RequestServiceInfo) (c0 : String)
    (hReady : env.Ready = true)
    (hsplit : req.ServiceInfo = pre ++ bad :: rest)
    (hpre : ∀ v ∈ pre, (v.ExecutionType = "native" ∨ v.ExecutionType = "android") → v.ExeCmd ≠ [])
    (hbadty : bad.ExecutionType = "native" ∨ bad.ExecutionType = "android")
    (hbadcmd : bad.ExeCmd.head? = some c0)
    (hbadne : c0 ≠ env.getServiceFileName req.ServiceName) :
    ∃ effs, RequestService env st req sched =
        some ({ Message := NOT_ALLOWED_COMMAND, ServiceName := req.ServiceName,
                RemoteTargetInfo := TargetInfo.zero }, st, effs) ∧
      resolverCalled effs = false ∧ dispatched effs = false := by
  obtain ⟨effs, heq⟩ :=
    validateLoop_disallowed env req.ServiceName bad rest c0 hbadty hbadcmd hbadne pre hpre
  rw [← hsplit] at heq
  obtain ⟨k, hk⟩ := validateLoop_shape env req.ServiceName req.ServiceInfo (true, effs) heq
  simp only at hk
  refine ⟨effs, ?_, ?_, ?_⟩
  · simp [RequestService, hReady, heq]
  · rw [hk]; exact resolverCalled_replicate k req.ServiceName
  · rw [hk]; exact dispatched_replicate k req.ServiceName

/-- Witness for claim C3: a disallowed native variant after a non-native
variant. -/
theorem claimC3_witness :
    ∃ effs, RequestService envBase OrchState.init c3req c2sched =
        some ({ Message := NOT_ALLOWED_COMMAND, ServiceName := c3req.ServiceName,
                RemoteTargetInfo := TargetInfo.zero }, OrchState.init, effs) ∧
      resolverCalled effs = false ∧ dispatched effs = false :=
  claimC3_not_allowed_command envBase OrchState.init c3req c2sched
    [{ ExecutionType := "rest", ExeCmd := ["irrelevant"] }]
    { ExecutionType := "native", ExeCmd := ["binevil", "x"] } [] "binevil"
    rfl rfl (by decide) (by decide) rfl (by decide)

/-- Counterexample to claim C3 as stated: this ready-state request
contains a native variant whose command head "binevil" differs from the
registered file name, yet RequestService panics (none) instead of
returning NOT_ALLOWED_COMMAND, because an earlier native variant carries
an empty command list. -/
theorem claimC3_counterexample :
    envBase.Ready = true ∧
    c3panicReq.ServiceInfo.get? 1 =
      some { ExecutionType := "native", ExeCmd := ["binevil"] } ∧
    ("binevil" ≠ envBase.getServiceFileName c3panicReq.ServiceName) ∧
    RequestService envBase OrchState.init c3panicReq c2sched = none :=
  ⟨rfl, rfl, by decide, rfl⟩

/-! ## Claim C5: the command matcher and its error surfacing -/

/-- Claim C5: the command matcher returns the command line of the first
variant (in original order) whose type equals the target; with no match it
returns the "Not Found" error, and a request whose winning execution type
matches no variant gets that message verbatim as its result code with a
zero-valued target (and no dispatch). -/
theorem claimC5_command_matcher (env : Env) (st : OrchState)
    (req : ReqeustService) (sched : GatherSchedule) (effs0 : List Effect)
    (candidates : List ExecutionCandidate) (top : deviceScore) (rest : List deviceScore) :
    (∀ (t : String) (pre : List RequestServiceInfo) (v : RequestServiceInfo)
        (post : List RequestServiceInfo), (∀ u ∈ pre, t ≠ u.ExecutionType) →
        t = v.ExecutionType → getExecCmds t (pre ++ v :: post) = Except.ok v.ExeCmd) ∧
    (∀ (t : String) (infos : List RequestServiceInfo),
        (∀ u ∈ infos, t ≠ u.ExecutionType) → getExecCmds t infos = Except.error "Not Found") ∧
    (env.Ready = true →
     validateLoop env req.ServiceName req.ServiceInfo = some (false, effs0) →
     ¬ (int32wrap (st.orchClientID + 1) < 0 ∨ 1024 ≤ int32wrap (st.orchClientID + 1)) →
     env.getDeviceInfoWithService req.ServiceName
       (req.ServiceInfo.map RequestServiceInfo.ExecutionType) = Except.ok candidates →
     sortByScore (gatherDevicesScore env candidates sched).1 = top :: rest →
     top.score ≠ env.INVALID_SCORE →
     (∀ u ∈ req.ServiceInfo, top.execType ≠ u.ExecutionType) →
     ∃ st2 effs, RequestService env st req sched =
         some ({ Message := "Not Found", ServiceName := req.ServiceName,
                 RemoteTargetInfo := TargetInfo.zero }, st2, effs) ∧
       dispatched effs = false) := by
  refine ⟨getExecCmds_first_match, getExecCmds_not_found, ?_⟩
  intro hReady hVal hID hCand hTop hsent hnomatch
  obtain ⟨k, hk⟩ := validateLoop_shape env req.ServiceName req.ServiceInfo (false, effs0) hVal
  simp only at hk
  have hdisp : dispatched ((effs0 ++ [Effect.getCandidate req.ServiceName
      (req.ServiceInfo.map RequestServiceInfo.ExecutionType)]) ++
      (gatherDevicesScore env candidates sched).2) = false := by
    rw [dispatched_append, dispatched_append, hk, dispatched_replicate, gather_no_dispatch]
    simp [dispatched]
  refine ⟨{ orchClientID := int32wrap (st.orchClientID + 1),
            orcheClients := ((int32wrap (st.orchClientID + 1)).toNat, req.ServiceName) :: st.orcheClients },
          (effs0 ++ [Effect.getCandidate req.ServiceName
            (req.ServiceInfo.map RequestServiceInfo.ExecutionType)]) ++
            (gatherDevicesScore env candidates sched).2, ?_, hdisp⟩
  simp only [RequestService, hReady, hVal, hCand, hTop,
    getExecCmds_not_found top.execType req.ServiceInfo hnomatch]
  simp [hID, hsent]

/-- Witness for claim C5: first-match and no-match instances, and the
scoring-error scenario whose empty winning execution type matches no
variant, surfacing "Not Found". -/
theorem claimC5_witness :
    getExecCmds "container"
        ([{ ExecutionType := "rest", ExeCmd := ["r"] }] ++
          ({ ExecutionType := "container", ExeCmd := ["run", "foo"] } : RequestServiceInfo) ::
          [{ ExecutionType := "container", ExeCmd := ["other"] }]) =
      Except.ok ["run", "foo"] ∧
    getExecCmds "android" [{ ExecutionType := "container", ExeCmd := ["run", "foo"] }] =
      Except.error "Not Found" ∧
    ∃ st2 effs, RequestService c2env OrchState.init c2req c2sched =
        some ({ Message := "Not Found", ServiceName := c2req.ServiceName,
                RemoteTargetInfo := TargetInfo.zero }, st2, effs) ∧
      dispatched effs = false := by
  refine ⟨?_, ?_, ?_⟩
  · exact (claimC5_command_matcher c2env OrchState.init c2req c2sched [] [c2cand]
      { id := "dev1", endpoint := "1.2.3.4", score := 0, execType := "" } []).1
      "container" [{ ExecutionType := "rest", ExeCmd := ["r"] }]
      { ExecutionType := "container", ExeCmd := ["run", "foo"] }
      [{ ExecutionType := "container", ExeCmd := ["other"] }] (by decide) rfl
  · exact (claimC5_command_matcher c2env OrchState.init c2req c2sched [] [c2cand]
      { id := "dev1", endpoint := "1.2.3.4", score := 0, execType := "" } []).2.1
      "android" [{ ExecutionType := "container", ExeCmd := ["run", "foo"] }] (by decide)
  · exact (claimC5_command_matcher c2env OrchState.init c2req c2sched [] [c2cand]
      { id := "dev1", endpoint := "1.2.3.4", score := 0, execType := "" } []).2.2
      rfl rfl (by decide) rfl (by decide) (by decide) (by decide)

end EdgeOrch

namespace EdgeOrch

/-! ## Collector lemmas for claims C8 and C9 -/

/-- When as many reports as the count sit ready in the stream, the
collector returns exactly them and never consumes any later event. -/
theorem collectorLoop_complete (count : ℕ) (junk : List GEvent) :
    ∀ (reports : List deviceScore) (idx : ℕ), reports.length + idx = count →
      0 < reports.length →
      collectorLoop count (reports.map GEvent.score ++ junk) idx = reports := by
  intro reports
  induction reports with
  | nil => intro idx _ hpos; exact absurd hpos (by simp)
  | cons r rs ih =>
    intro idx hcount _
    by_cases hc : count = idx + 1
    · have hnil : rs = [] := by
        simp only [List.length_cons] at hcount
        exact List.eq_nil_of_length_eq_zero (by omega)
      subst hnil
      simp [collectorLoop, hc]
    · have hpos : 0 < rs.length := by
        simp only [List.length_cons] at hcount; omega
      simp only [List.map_cons, List.cons_append, collectorLoop, List.append_eq, if_neg hc]
      rw [ih (idx + 1) (by simp only [List.length_cons] at hcount; omega) hpos]

/-- When at most the count of reports precede the timeout signal, the
collector returns exactly the reports that preceded it. -/
theorem collectorLoop_until_timeout (count : ℕ) (junk : List GEvent) :
    ∀ (reports : List deviceScore) (idx : ℕ), reports.length + idx ≤ count →
      collectorLoop count (reports.map GEvent.score ++ GEvent.timeout :: junk) idx = reports := by
  intro reports
  induction reports with
  | nil => intro idx _; simp [collectorLoop]
  | cons r rs ih =>
    intro idx hle
    by_cases hc : count = idx + 1
    · have hnil : rs = [] := by
        simp only [List.length_cons] at hle
        have : rs.length = 0 := by omega
        exact List.eq_nil_of_length_eq_zero this
      simp [collectorLoop, hc, hnil]
    · simp only [List.map_cons, List.cons_append, collectorLoop, List.append_eq, if_neg hc]
      rw [ih (idx + 1) (by simp only [List.length_cons] at hle; omega)]

/-- Pointwise-equal filterMap functions agree (specialised congruence). -/
theorem filterMap_congr_mem {α β : Type} {f g : α → Option β} :
    ∀ l : List α, (∀ a ∈ l, f a = g a) → l.filterMap f = l.filterMap g := by
  intro l
  induction l with
  | nil => intro _; rfl
  | cons a l ih =>
    intro h
    simp only [List.filterMap_cons, h a (by simp)]
    rw [ih fun b hb => h b (by simp [hb])]

/-- Indexing a list of length n with pairwise distinct indices below n
retrieves as many elements as there are indices. -/
theorem filterMap_index_length {β : Type} (cands : List ExecutionCandidate)
    (g : ExecutionCandidate → β) :
    ∀ l : List ℕ, (∀ i ∈ l, i < cands.length) →
      (l.filterMap fun i => (cands.get? i).map g).length = l.length := by
  intro l
  induction l with
  | nil => intro _; rfl
  | cons i l ih =>
    intro h
    have hi : i < cands.length := h i (by simp)
    have ih1 := ih fun j hj => h j (by simp [hj])
    simp only [List.get?_eq_getElem?] at ih1 ⊢
    simp only [List.filterMap_cons, List.getElem?_eq_getElem hi,
      Option.map_some', List.length_cons]
    rw [ih1]

/-- Every element retrieved by index-filterMap comes from the list. -/
theorem filterMap_index_mem {β : Type} (cands : List ExecutionCandidate)
    (g : ExecutionCandidate → β) (l : List ℕ) (s : β)
    (hs : s ∈ l.filterMap fun i => (cands.get? i).map g) : ∃ c ∈ cands, s = g c := by
  simp only [List.mem_filterMap] at hs
  obtain ⟨i, _, hget⟩ := hs
  match hc : cands.get? i with
  | none => rw [hc] at hget; exact absurd hget (by simp)
  | some c =>
    rw [hc] at hget
    simp only [Option.map_some', Option.some.injEq] at hget
    have : c ∈ cands := by
      rw [List.get?_eq_getElem?] at hc
      rw [List.getElem?_eq_some] at hc
      obtain ⟨h, hcc⟩ := hc
      exact hcc ▸ List.getElem_mem h
    exact ⟨c, this, hget.symm⟩

/-- A duplicate-free list of indices below n has at most n entries. -/
theorem nodup_lt_length_le (l : List ℕ) (n : ℕ) (hnd : l.Nodup)
    (hlt : ∀ i ∈ l, i < n) : l.length ≤ n := by
  have hcard : l.toFinset.card = l.length := List.toFinset_card_of_nodup hnd
  have hsub : l.toFinset ⊆ Finset.range n := by
    intro i hi
    rw [List.mem_toFinset] at hi
    exact Finset.mem_range.mpr (hlt i hi)
  have := Finset.card_le_card hsub
  rw [hcard, Finset.card_range] at this
  exact this

/-- The scores channel content of one round, as reached by the collector:
the reports of the scheduled arrivals, in arrival order. -/
theorem gather_scores_characterisation (env : Env) (cands : List ExecutionCandidate)
    (sched : GatherSchedule) (value : String)
    (hsys : env.sysDBGetValue = Except.ok value)
    (hvalid : sched.Valid cands.length) :
    (gatherDevicesScore env cands sched).1 =
      (sched.arrival.filterMap fun i => (cands.get? i).map (workerReport env value)).take
        sched.cut := by
  obtain ⟨hnd, hlt⟩ := hvalid
  have hrep : ∀ i ∈ sched.arrival,
      ((cands.map (worker env value (envLocalhosts env))).map Prod.fst).get? i =
        (cands.get? i).map (workerReport env value) := by
    intro i _
    rw [List.map_map]
    rw [List.get?_eq_getElem?, List.get?_eq_getElem?, List.getElem?_map]
    rfl
  have harr : (sched.arrival.filterMap fun i =>
        ((cands.map (worker env value (envLocalhosts env))).map Prod.fst).get? i) =
      sched.arrival.filterMap fun i => (cands.get? i).map (workerReport env value) :=
    filterMap_congr_mem sched.arrival hrep
  have hlen : (sched.arrival.filterMap fun i =>
      (cands.get? i).map (workerReport env value)).length = sched.arrival.length :=
    filterMap_index_length cands (workerReport env value) sched.arrival hlt
  have hbound : (sched.arrival.filterMap fun i =>
      (cands.get? i).map (workerReport env value)).length ≤ cands.length := by
    rw [hlen]; exact nodup_lt_length_le sched.arrival cands.length hnd hlt
  simp only [gatherDevicesScore, hsys, scheduleEvents]
  rw [harr]
  rw [← List.map_take, ← List.map_drop]
  have := collectorLoop_until_timeout cands.length
    ((List.map GEvent.score (List.drop sched.cut (sched.arrival.filterMap fun i =>
      (cands.get? i).map (workerReport env value)))))
    (List.take sched.cut (sched.arrival.filterMap fun i =>
      (cands.get? i).map (workerReport env value))) 0
    (by rw [Nat.add_zero, List.length_take]; omega)
  simpa using this

end EdgeOrch

namespace EdgeOrch

/-! ## Claim C8: collection size bound and stopping rule -/

/-- Claim C8: for every candidate set and valid schedule, the collected
score list never exceeds the candidate count, and the collector's content
is exactly the reports that arrived before the timeout signal, truncated
at one report per candidate — whichever limit bites first. -/
theorem claimC8_collection_bound (env : Env) (cands : List ExecutionCandidate)
    (sched : GatherSchedule) (hvalid : sched.Valid cands.length) :
    (gatherDevicesScore env cands sched).1.length ≤ cands.length ∧
    ∀ value, env.sysDBGetValue = Except.ok value →
      (gatherDevicesScore env cands sched).1 =
        (sched.arrival.filterMap fun i => (cands.get? i).map (workerReport env value)).take
          (min sched.cut cands.length) := by
  obtain ⟨hnd, hlt⟩ := hvalid
  have hb := nodup_lt_length_le sched.arrival cands.length hnd hlt
  constructor
  · match hsys : env.sysDBGetValue with
    | Except.error m => simp [gatherDevicesScore, hsys]
    | Except.ok value =>
      rw [gather_scores_characterisation env cands sched value hsys ⟨hnd, hlt⟩]
      have hlen := filterMap_index_length cands (workerReport env value) sched.arrival hlt
      rw [List.length_take, hlen]
      omega
  · intro value hsys
    rw [gather_scores_characterisation env cands sched value hsys ⟨hnd, hlt⟩]
    have hlen := filterMap_index_length cands (workerReport env value) sched.arrival hlt
    rw [List.take_eq_take, hlen]
    omega

/-- Witness for claim C8 at a concrete round. -/
theorem claimC8_witness :
    (gatherDevicesScore envBase cands9 sched9).1.length ≤ cands9.length ∧
    ∀ value, envBase.sysDBGetValue = Except.ok value →
      (gatherDevicesScore envBase cands9 sched9).1 =
        (sched9.arrival.filterMap fun i => (cands9.get? i).map (workerReport envBase value)).take
          (min sched9.cut cands9.length) :=
  claimC8_collection_bound envBase cands9 sched9 (by decide)

/-! ## Claim C9: candidates without endpoints -/

/-- Claim C9: a candidate with an empty endpoint list yields an immediate
report of score 0 (empty endpoint, zero-valued execType) tagged with its
id; the report counts toward completion, so when every candidate of a
non-empty round lacks endpoints and every report reaches the channel, the
collector finishes after exactly the reports — whatever events (in
particular the timeout) follow — and collects one score-0 entry per
candidate. -/
theorem claimC9_zero_endpoint_round (env : Env) (value : String)
    (cands : List ExecutionCandidate) (sched : GatherSchedule)
    (hsys : env.sysDBGetValue = Except.ok value)
    (hall : ∀ c ∈ cands, c.Endpoint = [])
    (hnd : sched.arrival.Nodup)
    (hlt : ∀ i ∈ sched.arrival, i < cands.length)
    (hlen : sched.arrival.length = cands.length)
    (hcut : cands.length ≤ sched.cut)
    (hpos : 0 < cands.length) :
    (∀ cand ∈ cands, worker env value (envLocalhosts env) cand =
        ({ id := cand.Id, endpoint := "", score := 0, execType := "" }, none)) ∧
    (∀ junk : List GEvent, collectorLoop cands.length
        ((sched.arrival.filterMap fun i => (cands.get? i).map (workerReport env value)).map
          GEvent.score ++ junk) 0 =
        sched.arrival.filterMap fun i => (cands.get? i).map (workerReport env value)) ∧
    (gatherDevicesScore env cands sched).1.length = cands.length ∧
    ∀ s ∈ (gatherDevicesScore env cands sched).1,
      s.endpoint = "" ∧ s.score = 0 ∧ ∃ c ∈ cands, s.id = c.Id := by
  have hw : ∀ cand ∈ cands, worker env value (envLocalhosts env) cand =
      ({ id := cand.Id, endpoint := "", score := 0, execType := "" }, none) := by
    intro c hc
    simp [worker, hall c hc]
  have harrlen : (sched.arrival.filterMap fun i =>
      (cands.get? i).map (workerReport env value)).length = sched.arrival.length :=
    filterMap_index_length cands (workerReport env value) sched.arrival hlt
  have hchar := gather_scores_characterisation env cands sched value hsys ⟨hnd, hlt⟩
  have htake : (sched.arrival.filterMap fun i =>
      (cands.get? i).map (workerReport env value)).take sched.cut =
      sched.arrival.filterMap fun i => (cands.get? i).map (workerReport env value) :=
    List.take_of_length_le (by rw [harrlen, hlen]; exact hcut)
  refine ⟨hw, ?_, ?_, ?_⟩
  · intro junk
    exact collectorLoop_complete cands.length junk _ 0 (by rw [Nat.add_zero, harrlen, hlen]) (by
      rw [harrlen, hlen]; exact hpos)
  · rw [hchar, htake, harrlen, hlen]
  · intro s hs
    rw [hchar, htake] at hs
    obtain ⟨c, hc, hsc⟩ :=
      filterMap_index_mem cands (workerReport env value) sched.arrival s hs
    have : workerReport env value c =
        { id := c.Id, endpoint := "", score := 0, execType := "" } := by
      unfold workerReport
      rw [hw c hc]
    rw [hsc, this]
    exact ⟨rfl, rfl, c, hc, rfl⟩

/-- Witness for claim C9 at a concrete two-candidate endpoint-less round. -/
theorem claimC9_witness :
    (∀ cand ∈ cands9, worker envBase "selfvalue" (envLocalhosts envBase) cand =
        ({ id := cand.Id, endpoint := "", score := 0, execType := "" }, none)) ∧
    (∀ junk : List GEvent, collectorLoop cands9.length
        ((sched9.arrival.filterMap fun i => (cands9.get? i).map (workerReport envBase "selfvalue")).map
          GEvent.score ++ junk) 0 =
        sched9.arrival.filterMap fun i => (cands9.get? i).map (workerReport envBase "selfvalue")) ∧
    (gatherDevicesScore envBase cands9 sched9).1.length = cands9.length ∧
    ∀ s ∈ (gatherDevicesScore envBase cands9 sched9).1,
      s.endpoint = "" ∧ s.score = 0 ∧ ∃ c ∈ cands9, s.id = c.Id :=
  claimC9_zero_endpoint_round envBase "selfvalue" cands9 sched9 rfl (by decide)
    (by decide) (by decide) (by decide) (by decide) (by decide)

end EdgeOrch

namespace EdgeOrch

/-! ## Claim C2: sole remote candidate whose scoring call errors -/

/-- Counterexample to claim C2 as stated: in the scoring-error scenario
the collected score is indeed (endpoint, 0) and the sentinel is not 0, but
RequestService does not proceed to dispatch — the error path left the
report's execType at the zero value, so command matching fails and the
response carries "Not Found" with no dispatch. -/
theorem claimC2_counterexample :
    c2env.INVALID_SCORE ≠ 0 ∧
    (gatherDevicesScore c2env [c2cand] c2sched).1 =
      [{ id := "dev1", endpoint := "1.2.3.4", score := 0, execType := "" }] ∧
    (RequestService c2env OrchState.init c2req c2sched).map
      (fun r => (r.1.Message, dispatched r.2.2)) = some ("Not Found", false) := by
  decide

/-- Claim C2 (amended): with a sole remote candidate whose scoring call
errors and whose report arrives in time, the collected score is
(endpoint, 0) with execType left at the zero value; when the sentinel is
not 0 the request passes the sentinel check and reaches command matching
with the empty execution type, which — for a request none of whose
variants declares the empty type — fails, surfacing "Not Found" as the
result code with a zero-valued target and no dispatch. -/
theorem claimC2_remote_error_scores_zero (env : Env) (st : OrchState)
    (req : ReqeustService) (sched : GatherSchedule) (effs0 : List Effect)
    (cand : ExecutionCandidate) (ep0 : String) (eps : List String) (value msg : String)
    (hReady : env.Ready = true)
    (hVal : validateLoop env req.ServiceName req.ServiceInfo = some (false, effs0))
    (hID : ¬ (int32wrap (st.orchClientID + 1) < 0 ∨ 1024 ≤ int32wrap (st.orchClientID + 1)))
    (hCand : env.getDeviceInfoWithService req.ServiceName
        (req.ServiceInfo.map RequestServiceInfo.ExecutionType) = Except.ok [cand])
    (hep : cand.Endpoint = ep0 :: eps)
    (hsys : env.sysDBGetValue = Except.ok value)
    (hremote : isLocalhost cand.Endpoint (envLocalhosts env) = false)
    (hscore : env.DoGetScoreRemoteDevice value ep0 = Except.error msg)
    (harr : sched.arrival = [0])
    (hcut : 1 ≤ sched.cut)
    (hsent : env.INVALID_SCORE ≠ 0)
    (hnoempty : ∀ u ∈ req.ServiceInfo, u.ExecutionType ≠ "") :
    (gatherDevicesScore env [cand] sched).1 =
      [{ id := cand.Id, endpoint := ep0, score := 0, execType := "" }] ∧
    ∃ st2 effs, RequestService env st req sched =
        some ({ Message := "Not Found", ServiceName := req.ServiceName,
                RemoteTargetInfo := TargetInfo.zero }, st2, effs) ∧
      dispatched effs = false := by
  have hwr : workerReport env value cand =
      { id := cand.Id, endpoint := ep0, score := 0, execType := "" } := by
    rw [hep] at hremote
    unfold workerReport worker
    rw [hep]
    simp only [hremote, Bool.false_eq_true, if_false, hscore]
  have hvalid : sched.Valid ([cand] : List ExecutionCandidate).length := by
    refine ⟨?_, ?_⟩
    · rw [harr]; simp
    · rw [harr]; simp
  have hchar := gather_scores_characterisation env [cand] sched value hsys hvalid
  rw [harr] at hchar
  simp only [List.filterMap_cons, List.filterMap_nil, List.get?_cons_zero,
    Option.map_some'] at hchar
  rw [hwr] at hchar
  have hgather : (gatherDevicesScore env [cand] sched).1 =
      [{ id := cand.Id, endpoint := ep0, score := 0, execType := "" }] := by
    rw [hchar]
    exact List.take_of_length_le (by simpa using hcut)
  refine ⟨hgather, ?_⟩
  have hsort : sortByScore (gatherDevicesScore env [cand] sched).1 =
      [{ id := cand.Id, endpoint := ep0, score := 0, execType := "" }] := by
    rw [hgather, sortByScore_singleton]
  obtain ⟨k, hk⟩ := validateLoop_shape env req.ServiceName req.ServiceInfo (false, effs0) hVal
  simp only at hk
  have hdisp : dispatched ((effs0 ++ [Effect.getCandidate req.ServiceName
      (req.ServiceInfo.map RequestServiceInfo.ExecutionType)]) ++
      (gatherDevicesScore env [cand] sched).2) = false := by
    rw [dispatched_append, dispatched_append, hk, dispatched_replicate, gather_no_dispatch]
    simp [dispatched]
  refine ⟨{ orchClientID := int32wrap (st.orchClientID + 1),
            orcheClients := ((int32wrap (st.orchClientID + 1)).toNat, req.ServiceName) :: st.orcheClients },
          (effs0 ++ [Effect.getCandidate req.ServiceName
            (req.ServiceInfo.map RequestServiceInfo.ExecutionType)]) ++
            (gatherDevicesScore env [cand] sched).2, ?_, hdisp⟩
  have hnf : getExecCmds "" req.ServiceInfo = Except.error "Not Found" :=
    getExecCmds_not_found "" req.ServiceInfo fun u hu => Ne.symm (hnoempty u hu)
  simp only [RequestService, hReady, hVal, hCand, hsort, hnf]
  simp [hID, Ne.symm hsent]

/-- Witness for the amended claim C2 at the concrete scoring-error
scenario. -/
theorem claimC2_witness :
    (gatherDevicesScore c2env [c2cand] c2sched).1 =
      [{ id := c2cand.Id, endpoint := "1.2.3.4", score := 0, execType := "" }] ∧
    ∃ st2 effs, RequestService c2env OrchState.init c2req c2sched =
        some ({ Message := "Not Found", ServiceName := c2req.ServiceName,
                RemoteTargetInfo := TargetInfo.zero }, st2, effs) ∧
      dispatched effs = false :=
  claimC2_remote_error_scores_zero c2env OrchState.init c2req c2sched []
    c2cand "1.2.3.4" [] "selfvalue" "rpc failed"
    rfl rfl (by decide) rfl rfl rfl (by decide) rfl rfl (by decide) (by decide)
    (by decide)

end EdgeOrch

namespace EdgeOrch

/-! ## Claim C1: the ranking sort

The counterexamples first; then the infrastructure relating the embedded
sort.Slice algorithm to permutation and descending order. -/

set_option maxRecDepth 4000000

/-- Counterexample to claim C1 as stated: sort.Slice's shell pass reorders
the equal-scored entries of ex7 (the stable descending sort keeps b..g in
arrival order, sortByScore moves g first), and ex13 is already sorted
descending yet re-sorting it moves the equal-scored entry G ahead of
B..F — so the ranking is neither stable nor idempotent. -/
theorem claimC1_counterexample :
    SortedByScoreDesc ex13 ∧
    sortByScore ex7 ≠ specStableSort ex7 ∧
    sortByScore ex13 ≠ ex13 := by
  decide

/-! ### Reads, writes and swaps -/

theorem lget_eq_getElem? (l : List deviceScore) (i : ℕ) : lget l i = l[i]?.getD dflt := by
  simp [lget, List.getD_eq_getElem?_getD]

theorem lget_set (l : List deviceScore) (i j : ℕ) (a : deviceScore) :
    lget (l.set i a) j = if i = j ∧ i < l.length then a else lget l j := by
  rw [lget_eq_getElem?, lget_eq_getElem?, List.getElem?_set]
  by_cases h1 : i = j
  · subst h1
    by_cases h2 : i < l.length
    · simp [h2]
    · rw [List.getElem?_eq_none (Nat.le_of_not_lt h2)]
      simp [h2]
  · simp [h1]

theorem length_lswap (l : List deviceScore) (i j : ℕ) :
    (lswap l i j).length = l.length := by
  unfold lswap
  split
  · simp
  · rfl

theorem lswap_oob (l : List deviceScore) (i j : ℕ)
    (h : ¬ (i < l.length ∧ j < l.length)) : lswap l i j = l := by
  unfold lswap
  exact if_neg h

theorem lget_lswap (l : List deviceScore) (i j k : ℕ)
    (hi : i < l.length) (hj : j < l.length) :
    lget (lswap l i j) k =
      if k = j then lget l i else if k = i then lget l j else lget l k := by
  unfold lswap
  rw [if_pos ⟨hi, hj⟩]
  rw [lget_set, lget_set]
  simp only [List.length_set]
  by_cases hkj : k = j
  · subst hkj
    simp [hj]
  · by_cases hki : k = i
    · subst hki
      simp [Ne.symm hkj, hkj, hi]
    · simp [Ne.symm hkj, Ne.symm hki, hkj, hki]

theorem lget_lswap_other (l : List deviceScore) (i j k : ℕ)
    (hki : k ≠ i) (hkj : k ≠ j) : lget (lswap l i j) k = lget l k := by
  by_cases h : i < l.length ∧ j < l.length
  · rw [lget_lswap l i j k h.1 h.2, if_neg hkj, if_neg hki]
  · rw [lswap_oob l i j h]

theorem lget_cons_zero (x : deviceScore) (t : List deviceScore) : lget (x :: t) 0 = x := rfl

theorem lget_cons_succ (x : deviceScore) (t : List deviceScore) (k : ℕ) :
    lget (x :: t) (k + 1) = lget t k := rfl

/-- Putting the k-th entry in front of a write at k is a permutation. -/
theorem getset_cons_perm :
    ∀ (t : List deviceScore) (k : ℕ) (a : deviceScore), k < t.length →
      (lget t k :: t.set k a).Perm (a :: t) := by
  intro t
  induction t with
  | nil => intro k a h; simp at h
  | cons b t ih =>
    intro k a hk
    match k with
    | 0 =>
      rw [lget_cons_zero]
      simp only [List.set_cons_zero]
      exact List.Perm.swap a b t
    | m + 1 =>
      rw [lget_cons_succ]
      simp only [List.set_cons_succ]
      exact (List.Perm.swap b (lget t m) (t.set m a)).trans
        (((ih m a (by simpa using hk)).cons b).trans (List.Perm.swap a b t))

theorem lswap_perm : ∀ (l : List deviceScore) (i j : ℕ), (lswap l i j).Perm l := by
  intro l
  induction l with
  | nil => intro i j; rw [lswap_oob]; simp
  | cons x t ih =>
    intro i j
    by_cases hb : i < (x :: t).length ∧ j < (x :: t).length
    · unfold lswap
      rw [if_pos hb]
      match i, j with
      | 0, 0 =>
        simp only [List.set_cons_zero, lget_cons_zero]
        rfl
      | 0, m + 1 =>
        simp only [List.set_cons_zero, lget_cons_succ, List.set_cons_succ, lget_cons_zero]
        exact getset_cons_perm t m x (by simpa using hb.2)
      | n + 1, 0 =>
        simp only [List.set_cons_zero, lget_cons_succ, List.set_cons_succ, lget_cons_zero]
        exact getset_cons_perm t n x (by simpa using hb.1)
      | n + 1, m + 1 =>
        simp only [lget_cons_succ, List.set_cons_succ]
        have := ih n m
        rw [lswap] at this
        by_cases hb2 : n < t.length ∧ m < t.length
        · rw [if_pos hb2] at this
          exact this.cons x
        · exact absurd ⟨by simpa using hb.1, by simpa using hb.2⟩ hb2
    · rw [lswap_oob _ _ _ hb]

/-! ### Range operations -/

theorem RangeOp.refl (l : List deviceScore) (a b : ℕ) : RangeOp l l a b :=
  ⟨Eq.refl _, fun _ _ => Eq.refl _, fun _ h => h⟩

theorem RangeOp.trans {l l' l'' : List deviceScore} {a b : ℕ}
    (h1 : RangeOp l l' a b) (h2 : RangeOp l' l'' a b) : RangeOp l l'' a b := by
  obtain ⟨hlen1, hout1, hp1⟩ := h1
  obtain ⟨hlen2, hout2, hp2⟩ := h2
  exact ⟨hlen2.trans hlen1, fun k hk => (hout2 k hk).trans (hout1 k hk),
    fun P hP => hp2 P (hp1 P hP)⟩

theorem RangeOp.mono {l l' : List deviceScore} {a b a' b' : ℕ}
    (ha : a' ≤ a) (hb : b ≤ b') (h : RangeOp l l' a b) : RangeOp l l' a' b' := by
  obtain ⟨hlen, hout, hp⟩ := h
  refine ⟨hlen, ?_, ?_⟩
  · intro k hk
    exact hout k (by omega)
  · intro P hP k hk1 hk2
    by_cases hin : a ≤ k ∧ k < b
    · exact hp P (fun m hm1 hm2 => hP m (by omega) (by omega)) k hin.1 hin.2
    · rw [hout k (by omega)]
      exact hP k hk1 hk2

theorem RangeOp.swap {l : List deviceScore} {a b i j : ℕ}
    (hai : a ≤ i) (hib : i < b) (haj : a ≤ j) (hjb : j < b) (hbl : b ≤ l.length) :
    RangeOp l (lswap l i j) a b := by
  have hi : i < l.length := by omega
  have hj : j < l.length := by omega
  refine ⟨length_lswap l i j, ?_, ?_⟩
  · intro k hk
    exact lget_lswap_other l i j k (by omega) (by omega)
  · intro P hP k hk1 hk2
    rw [lget_lswap l i j k hi hj]
    by_cases hkj : k = j
    · rw [if_pos hkj]; exact hP i hai hib
    · rw [if_neg hkj]
      by_cases hki : k = i
      · rw [if_pos hki]; exact hP j haj hjb
      · rw [if_neg hki]; exact hP k hk1 hk2

theorem RangeOp.length_eq {l l' : List deviceScore} {a b : ℕ}
    (h : RangeOp l l' a b) : l'.length = l.length := h.1

theorem RangeOp.outside {l l' : List deviceScore} {a b : ℕ}
    (h : RangeOp l l' a b) : ∀ k, k < a ∨ b ≤ k → lget l' k = lget l k := h.2.1

theorem RangeOp.preserve {l l' : List deviceScore} {a b : ℕ}
    (h : RangeOp l l' a b) :
    ∀ P : deviceScore → Prop, (∀ k, a ≤ k → k < b → P (lget l k)) →
      ∀ k, a ≤ k → k < b → P (lget l' k) := h.2.2

end EdgeOrch

namespace EdgeOrch

/-! ### Insertion sort -/

/-- A range of at most one index is sorted. -/
theorem sortedRange_small (l : List deviceScore) (a b : ℕ) (h : b ≤ a + 1) :
    SortedRange l a b := by
  intro i j h1 h2 h3
  omega

/-- Restriction of sortedness to a shorter range. -/
theorem SortedRange.shrink {l : List deviceScore} {a b b' : ℕ} (hb : b' ≤ b)
    (h : SortedRange l a b) : SortedRange l a b' := by
  intro i j h1 h2 h3
  exact h i j h1 h2 (by omega)

theorem insertionInner_perm (a : ℕ) :
    ∀ (j : ℕ) (l : List deviceScore), (insertionInner a l j).Perm l := by
  intro j
  induction j with
  | zero => intro l; simp [insertionInner]
  | succ jj ih =>
    intro l
    by_cases hc : a ≤ jj ∧ lless l (jj + 1) jj
    · simp only [insertionInner, if_pos hc]
      exact (ih (lswap l (jj + 1) jj)).trans (lswap_perm l (jj + 1) jj)
    · simp only [insertionInner, if_neg hc]
      exact List.Perm.refl l

/-- The inner insertion loop: inserting the element at j into the sorted
prefix produces a sorted range up to e, rearranging only within [a, e). -/
theorem insertionInner_spec (a e : ℕ) :
    ∀ (j : ℕ) (l : List deviceScore), j < e → e ≤ l.length →
      SortedRange l a j →
      SortedRange l j e →
      (∀ p q, a ≤ p → p < j → j < q → q < e → (lget l q).score ≤ (lget l p).score) →
      SortedRange (insertionInner a l j) a e ∧ RangeOp l (insertionInner a l j) a e := by
  intro j
  induction j with
  | zero =>
    intro l _ _ _ h2 _
    refine ⟨?_, by simp only [insertionInner]; exact RangeOp.refl l a e⟩
    simp only [insertionInner]
    intro p q hp hpq hq
    exact h2 p q (Nat.zero_le p) hpq hq
  | succ jj ih =>
    intro l hje hel h1 h2 h3
    by_cases hc : a ≤ jj ∧ lless l (jj + 1) jj
    · simp only [insertionInner, if_pos hc]
      obtain ⟨haj, hlt⟩ := hc
      have hlt' : (lget l jj).score < (lget l (jj + 1)).score := hlt
      have hjl : jj < l.length := by omega
      have hjl1 : jj + 1 < l.length := by omega
      have hswap : ∀ k, lget (lswap l (jj + 1) jj) k =
          if k = jj then lget l (jj + 1) else if k = jj + 1 then lget l jj else lget l k := by
        intro k
        exact lget_lswap l (jj + 1) jj k hjl1 hjl
      have h1' : SortedRange (lswap l (jj + 1) jj) a jj := by
        intro p q hp hpq hq
        rw [hswap p, hswap q, if_neg (by omega), if_neg (by omega),
          if_neg (by omega), if_neg (by omega)]
        exact h1 p q hp hpq (by omega)
      have h2' : SortedRange (lswap l (jj + 1) jj) jj e := by
        intro p q hp hpq hq
        rw [hswap p, hswap q]
        by_cases hpj : p = jj
        · rw [if_pos hpj]
          by_cases hqj1 : q = jj + 1
          · rw [if_neg (by omega), if_pos hqj1]
            exact le_of_lt hlt'
          · rw [if_neg (by omega), if_neg hqj1]
            exact h2 (jj + 1) q (by omega) (by omega) hq
        · have hpj1 : p = jj + 1 ∨ jj + 1 < p := by omega
          rcases hpj1 with hpj1 | hpj1
          · rw [if_neg (by omega), if_pos hpj1, if_neg (by omega), if_neg (by omega)]
            exact h3 jj q haj (by omega) (by omega) hq
          · rw [if_neg (by omega), if_neg (by omega), if_neg (by omega), if_neg (by omega)]
            exact h2 p q (by omega) hpq hq
      have h3' : ∀ p q, a ≤ p → p < jj → jj < q → q < e →
          (lget (lswap l (jj + 1) jj) q).score ≤ (lget (lswap l (jj + 1) jj) p).score := by
        intro p q hp hpj hjq hq
        have hvp : lget (lswap l (jj + 1) jj) p = lget l p :=
          lget_lswap_other l (jj + 1) jj p (by omega) (by omega)
        by_cases hqj1 : q = jj + 1
        · have hvq : lget (lswap l (jj + 1) jj) q = lget l jj := by
            rw [hswap q, if_neg (by omega), if_pos hqj1]
          rw [hvp, hvq]
          exact h1 p jj hp hpj (by omega)
        · have hvq : lget (lswap l (jj + 1) jj) q = lget l q :=
            lget_lswap_other l (jj + 1) jj q (by omega) (by omega)
          rw [hvp, hvq]
          exact h3 p q hp (by omega) (by omega) hq
      have hrec := ih (lswap l (jj + 1) jj) (by omega)
        (by rw [length_lswap]; exact hel) h1' h2' h3'
      refine ⟨hrec.1, RangeOp.trans ?_ hrec.2⟩
      exact RangeOp.swap (by omega) (by omega) haj (by omega) hel
    · simp only [insertionInner, if_neg hc]
      refine ⟨?_, RangeOp.refl l a e⟩
      by_cases haj : a ≤ jj
      · have hnl : ¬ lless l (jj + 1) jj := fun h => hc ⟨haj, h⟩
        have hle : (lget l (jj + 1)).score ≤ (lget l jj).score := le_of_not_lt hnl
        intro p q hp hpq hq
        by_cases hqj : q ≤ jj
        · exact h1 p q hp hpq (by omega)
        · by_cases hpj : jj + 1 ≤ p
          · exact h2 p q (by omega) hpq hq
          · have hpj' : p ≤ jj := by omega
            by_cases hqj1 : q = jj + 1
            · subst hqj1
              by_cases hpjj : p = jj
              · subst hpjj; exact hle
              · exact le_trans hle (h1 p jj hp (by omega) (by omega))
            · by_cases hpjj : p = jj
              · rw [hpjj]
                exact le_trans (h2 (jj + 1) q (by omega) (by omega) hq) hle
              · exact h3 p q hp (by omega) (by omega) hq
      · intro p q hp hpq hq
        exact h2 p q (by omega) hpq hq

theorem insertionLoop_perm (a b : ℕ) :
    ∀ (fuel i : ℕ) (l : List deviceScore), (insertionLoop a b fuel l i).Perm l := by
  intro fuel
  induction fuel with
  | zero => intro i l; simp [insertionLoop]
  | succ f ih =>
    intro i l
    by_cases hc : i < b
    · simp only [insertionLoop, if_pos hc]
      exact (ih (i + 1) (insertionInner a l i)).trans (insertionInner_perm a i l)
    · simp only [insertionLoop, if_neg hc]
      exact List.Perm.refl l

theorem insertionLoop_spec (a b : ℕ) :
    ∀ (fuel i : ℕ) (l : List deviceScore), b ≤ l.length → b ≤ i + fuel → a < i →
      SortedRange l a i →
      SortedRange (insertionLoop a b fuel l i) a b ∧
        RangeOp l (insertionLoop a b fuel l i) a b := by
  intro fuel
  induction fuel with
  | zero =>
    intro i l _ hfuel _ hsort
    simp only [insertionLoop]
    exact ⟨hsort.shrink (by omega), RangeOp.refl l a b⟩
  | succ f ih =>
    intro i l hbl hfuel hai hsort
    by_cases hc : i < b
    · simp only [insertionLoop, if_pos hc]
      have hinner := insertionInner_spec a (i + 1) i l (by omega) (by omega) hsort
        (sortedRange_small l i (i + 1) (by omega))
        (fun p q _ _ h5 h6 => by omega)
      have hrec := ih (i + 1) (insertionInner a l i)
        (by rw [hinner.2.length_eq]; exact hbl) (by omega) (by omega) hinner.1
      exact ⟨hrec.1, RangeOp.trans (hinner.2.mono (le_refl a) (by omega)) hrec.2⟩
    · simp only [insertionLoop, if_neg hc]
      exact ⟨hsort.shrink (by omega), RangeOp.refl l a b⟩

theorem insertionSortGo_perm (l : List deviceScore) (a b : ℕ) :
    (insertionSortGo l a b).Perm l := insertionLoop_perm a b b (a + 1) l

theorem insertionSortGo_spec (l : List deviceScore) (a b : ℕ) (hb : b ≤ l.length) :
    SortedRange (insertionSortGo l a b) a b ∧ RangeOp l (insertionSortGo l a b) a b := by
  unfold insertionSortGo
  exact insertionLoop_spec a b b (a + 1) l hb (by omega) (by omega)
    (sortedRange_small l a (a + 1) (by omega))

end EdgeOrch

namespace EdgeOrch

/-! ### Shell pass and the small-range branch -/

theorem shellLoop_spec (a b : ℕ) :
    ∀ (fuel i : ℕ) (l : List deviceScore), a + 6 ≤ i → b ≤ l.length →
      RangeOp l (shellLoop b fuel l i) a b ∧ (shellLoop b fuel l i).Perm l := by
  intro fuel
  induction fuel with
  | zero =>
    intro i l _ _
    exact ⟨RangeOp.refl l a b, List.Perm.refl l⟩
  | succ f ih =>
    intro i l hai hbl
    by_cases hc : i < b
    · simp only [shellLoop, if_pos hc]
      by_cases hless : lless l i (i - 6)
      · rw [if_pos hless]
        have hstep : RangeOp l (lswap l i (i - 6)) a b :=
          RangeOp.swap (by omega) hc (by omega) (by omega) hbl
        have hrec := ih (i + 1) (lswap l i (i - 6)) (by omega)
          (by rw [length_lswap]; exact hbl)
        exact ⟨RangeOp.trans hstep hrec.1, hrec.2.trans (lswap_perm l i (i - 6))⟩
      · rw [if_neg hless]
        exact ih (i + 1) l (by omega) hbl
    · simp only [shellLoop, if_neg hc]
      exact ⟨RangeOp.refl l a b, List.Perm.refl l⟩

theorem shellPass_spec (l : List deviceScore) (a b : ℕ) (hb : b ≤ l.length) :
    RangeOp l (shellPass l a b) a b ∧ (shellPass l a b).Perm l :=
  shellLoop_spec a b b (a + 6) l (by omega) hb

theorem smallSortGo_spec (l : List deviceScore) (a b : ℕ) (hb : b ≤ l.length) :
    SortedRange (smallSortGo l a b) a b ∧ RangeOp l (smallSortGo l a b) a b ∧
      (smallSortGo l a b).Perm l := by
  unfold smallSortGo
  by_cases hc : b - a > 1
  · rw [if_pos hc]
    have hshell := shellPass_spec l a b hb
    have hlen : b ≤ (shellPass l a b).length := by rw [hshell.1.length_eq]; exact hb
    have hins := insertionSortGo_spec (shellPass l a b) a b hlen
    exact ⟨hins.1, RangeOp.trans hshell.1 hins.2,
      (insertionSortGo_perm (shellPass l a b) a b).trans hshell.2⟩
  · rw [if_neg hc]
    exact ⟨sortedRange_small l a b (by omega), RangeOp.refl l a b, List.Perm.refl l⟩

end EdgeOrch

namespace EdgeOrch

/-! ### doPivot: the scan loops -/

/-- advanceA skips the prefix of entries that sort strictly before the
pivot (score above the pivot's). -/
theorem advanceA_spec (l : List deviceScore) (pivot c : ℕ) :
    ∀ (fuel a : ℕ), c ≤ a + fuel →
      a ≤ advanceA l pivot c fuel a ∧
      (a ≤ c → advanceA l pivot c fuel a ≤ c) ∧
      (∀ k, a ≤ k → k < advanceA l pivot c fuel a →
        (lget l pivot).score < (lget l k).score) ∧
      (advanceA l pivot c fuel a < c →
        (lget l (advanceA l pivot c fuel a)).score ≤ (lget l pivot).score) := by
  intro fuel
  induction fuel with
  | zero =>
    intro a hfuel
    simp only [advanceA]
    exact ⟨le_refl a, fun h => h, fun k h1 h2 => absurd h2 (by omega),
      fun h => absurd h (by omega)⟩
  | succ f ih =>
    intro a hfuel
    by_cases hc : a < c ∧ lless l a pivot
    · simp only [advanceA, if_pos hc]
      have hrec := ih (a + 1) (by omega)
      refine ⟨by omega, fun _ => hrec.2.1 (by omega), ?_, hrec.2.2.2⟩
      intro k h1 h2
      by_cases hka : k = a
      · rw [hka]; exact hc.2
      · exact hrec.2.2.1 k (by omega) h2
    · simp only [advanceA, if_neg hc]
      refine ⟨le_refl a, fun h => h, fun k h1 h2 => absurd h2 (by omega), ?_⟩
      intro hlt
      have : ¬ lless l a pivot := fun h => hc ⟨hlt, h⟩
      exact le_of_not_lt this

/-- advanceB skips entries not sorting after the pivot (score at least the
pivot's). -/
theorem advanceB_spec (l : List deviceScore) (pivot c : ℕ) :
    ∀ (fuel b : ℕ), c ≤ b + fuel →
      b ≤ advanceB l pivot c fuel b ∧
      (b ≤ c → advanceB l pivot c fuel b ≤ c) ∧
      (b > c → advanceB l pivot c fuel b = b) ∧
      (∀ k, b ≤ k → k < advanceB l pivot c fuel b →
        (lget l pivot).score ≤ (lget l k).score) ∧
      (advanceB l pivot c fuel b < c →
        (lget l (advanceB l pivot c fuel b)).score < (lget l pivot).score) := by
  intro fuel
  induction fuel with
  | zero =>
    intro b hfuel
    simp only [advanceB]
    exact ⟨le_refl b, fun h => h, fun _ => by trivial, fun k h1 h2 => absurd h2 (by omega),
      fun h => absurd h (by omega)⟩
  | succ f ih =>
    intro b hfuel
    by_cases hc : b < c ∧ ¬ lless l pivot b
    · simp only [advanceB, if_pos hc]
      have hrec := ih (b + 1) (by omega)
      refine ⟨by omega, fun _ => hrec.2.1 (by omega), fun h => absurd h (by omega), ?_,
        hrec.2.2.2.2⟩
      intro k h1 h2
      by_cases hkb : k = b
      · rw [hkb]; exact le_of_not_lt hc.2
      · exact hrec.2.2.2.1 k (by omega) h2
    · simp only [advanceB, if_neg hc]
      refine ⟨le_refl b, fun h => h, fun _ => by trivial, fun k h1 h2 => absurd h2 (by omega), ?_⟩
      intro hlt
      have : lless l pivot b := by
        by_cases h : lless l pivot b
        · exact h
        · exact absurd ⟨hlt, h⟩ hc
      exact this

/-- retreatC pulls c down over entries sorting strictly after the pivot
(score below the pivot's). -/
theorem retreatC_spec (l : List deviceScore) (pivot b : ℕ) :
    ∀ c : ℕ, retreatC l pivot b c ≤ c ∧
      (b ≤ c → b ≤ retreatC l pivot b c) ∧
      (c ≤ b → retreatC l pivot b c = c) ∧
      (∀ k, retreatC l pivot b c ≤ k → k < c →
        (lget l k).score < (lget l pivot).score) ∧
      (b < retreatC l pivot b c →
        (lget l pivot).score ≤ (lget l (retreatC l pivot b c - 1)).score) := by
  intro c
  induction c with
  | zero =>
    simp only [retreatC]
    exact ⟨le_refl 0, fun h => h, fun _ => by trivial, fun k h1 h2 => absurd h2 (by omega),
      fun h => absurd h (by omega)⟩
  | succ cc ih =>
    by_cases hc : b < cc + 1 ∧ lless l pivot cc
    · simp only [retreatC, if_pos hc]
      refine ⟨by omega, fun _ => ih.2.1 (by omega), fun h => absurd h (by omega), ?_, ih.2.2.2.2⟩
      intro k h1 h2
      by_cases hkc : k = cc
      · rw [hkc]; exact hc.2
      · exact ih.2.2.2.1 k h1 (by omega)
    · simp only [retreatC, if_neg hc]
      refine ⟨le_refl _, fun h => h, fun _ => by trivial, fun k h1 h2 => absurd h2 (by omega), ?_⟩
      intro hb
      have hnl : ¬ lless l pivot cc := fun h => hc ⟨by omega, h⟩
      simpa using le_of_not_lt hnl

end EdgeOrch

namespace EdgeOrch

/-! ### doPivot: the partition loop -/

/-- The partition loop of doPivot: viewed from the pivot's score v, it
ends with b1 at most one past c1, everything in (pivot, b1) scoring at
least v and everything in [c1, hi-1) scoring below v, rearranging only
within (pivot, hi-1). -/
theorem partitionLoop_spec (pivot hi : ℕ) :
    ∀ (fuel : ℕ) (l : List deviceScore) (b c : ℕ),
      c + 1 ≤ b + fuel →
      pivot + 1 ≤ b → b ≤ c + 1 → c ≤ hi - 1 → hi ≤ l.length →
      (∀ k, pivot + 1 ≤ k → k < b → (lget l pivot).score ≤ (lget l k).score) →
      (∀ k, c ≤ k → k < hi - 1 → (lget l k).score < (lget l pivot).score) →
      RangeOp l (partitionLoop pivot fuel l b c).1 (pivot + 1) (hi - 1) ∧
      (partitionLoop pivot fuel l b c).1.Perm l ∧
      pivot + 1 ≤ (partitionLoop pivot fuel l b c).2.1 ∧
      (partitionLoop pivot fuel l b c).2.2 ≤ (partitionLoop pivot fuel l b c).2.1 ∧
      (partitionLoop pivot fuel l b c).2.1 ≤ (partitionLoop pivot fuel l b c).2.2 + 1 ∧
      (b ≤ c → (partitionLoop pivot fuel l b c).2.1 = (partitionLoop pivot fuel l b c).2.2) ∧
      (partitionLoop pivot fuel l b c).2.2 ≤ hi - 1 ∧
      (∀ k, pivot + 1 ≤ k → k < (partitionLoop pivot fuel l b c).2.1 →
        (lget l pivot).score ≤ (lget (partitionLoop pivot fuel l b c).1 k).score) ∧
      (∀ k, (partitionLoop pivot fuel l b c).2.2 ≤ k → k < hi - 1 →
        (lget (partitionLoop pivot fuel l b c).1 k).score < (lget l pivot).score) := by
  intro fuel
  induction fuel with
  | zero =>
    intro l b c hfuel hpb hbc hch hhl hPB hPC
    simp only [partitionLoop]
    exact ⟨RangeOp.refl l _ _, List.Perm.refl l, hpb, by omega, by omega,
      fun h => by omega, hch, hPB, hPC⟩
  | succ f ih =>
    intro l b c hfuel hpb hbc hch hhl hPB hPC
    simp only [partitionLoop]
    have hadv := advanceB_spec l pivot c c b (by omega)
    set b1 := advanceB l pivot c c b with hb1def
    have hret := retreatC_spec l pivot b1 c
    set c1 := retreatC l pivot b1 c with hc1def
    have hPB1 : ∀ k, pivot + 1 ≤ k → k < b1 → (lget l pivot).score ≤ (lget l k).score := by
      intro k h1 h2
      by_cases hkb : k < b
      · exact hPB k h1 hkb
      · exact hadv.2.2.2.1 k (by omega) h2
    have hPC1 : ∀ k, c1 ≤ k → k < hi - 1 → (lget l k).score < (lget l pivot).score := by
      intro k h1 h2
      by_cases hkc : c ≤ k
      · exact hPC k hkc h2
      · exact hret.2.2.2.1 k h1 (by omega)
    by_cases hex : b1 ≥ c1
    · rw [if_pos hex]
      dsimp only
      have hb1c1 : b1 ≤ c1 + 1 := by
        by_cases hblec : b ≤ c
        · have hb1c : b1 ≤ c := hadv.2.1 hblec
          exact Nat.le_succ_of_le (hret.2.1 hb1c)
        · have hbeq : b = c + 1 := by omega
          have hb1b : b1 = b := hadv.2.2.1 (by omega)
          have hc1c : c1 = c := hret.2.2.1 (by omega)
          omega
      refine ⟨RangeOp.refl l _ _, List.Perm.refl l, by omega, hex, hb1c1, ?_,
        by omega, hPB1, hPC1⟩
      intro hblec
      have h1 : b1 ≤ c := hadv.2.1 hblec
      have h2 : b1 ≤ c1 := hret.2.1 h1
      omega
    · rw [if_neg hex]
      have hb1c1 : b1 < c1 := by omega
      have hc1c : c1 ≤ c := hret.1
      have hb1b : b ≤ b1 := hadv.1
      have hsb1 : (lget l b1).score < (lget l pivot).score :=
        hadv.2.2.2.2 (by omega)
      have hsc1 : (lget l pivot).score ≤ (lget l (c1 - 1)).score :=
        hret.2.2.2.2 (by omega)
      have hne : b1 ≠ c1 - 1 := by
        intro h
        rw [h] at hsb1
        exact absurd hsc1 (not_le_of_lt hsb1)
      have hb1lt : b1 < c1 - 1 := by omega
      have hswap : ∀ k, lget (lswap l b1 (c1 - 1)) k =
          if k = c1 - 1 then lget l b1 else if k = b1 then lget l (c1 - 1) else lget l k := by
        intro k
        exact lget_lswap l b1 (c1 - 1) k (by omega) (by omega)
      have hppiv : lget (lswap l b1 (c1 - 1)) pivot = lget l pivot := by
        rw [hswap pivot, if_neg (by omega), if_neg (by omega)]
      have hPB' : ∀ k, pivot + 1 ≤ k → k < b1 + 1 →
          (lget (lswap l b1 (c1 - 1)) pivot).score ≤ (lget (lswap l b1 (c1 - 1)) k).score := by
        intro k h1 h2
        rw [hppiv]
        by_cases hkb1 : k = b1
        · rw [hswap k, if_neg (by omega), if_pos hkb1]
          exact hsc1
        · rw [hswap k, if_neg (by omega), if_neg hkb1]
          exact hPB1 k h1 (by omega)
      have hPC' : ∀ k, c1 - 1 ≤ k → k < hi - 1 →
          (lget (lswap l b1 (c1 - 1)) k).score < (lget (lswap l b1 (c1 - 1)) pivot).score := by
        intro k h1 h2
        rw [hppiv]
        by_cases hkc1 : k = c1 - 1
        · rw [hswap k, if_pos hkc1]
          exact hsb1
        · rw [hswap k, if_neg hkc1, if_neg (by omega)]
          exact hPC1 k (by omega) h2
      have hrec := ih (lswap l b1 (c1 - 1)) (b1 + 1) (c1 - 1)
        (by omega) (by omega) (by omega) (by omega)
        (by rw [length_lswap]; exact hhl) hPB' hPC'
      rw [hppiv] at hrec
      have hsw : RangeOp l (lswap l b1 (c1 - 1)) (pivot + 1) (hi - 1) :=
        RangeOp.swap (by omega) (by omega) (by omega) (by omega) (by omega)
      exact ⟨RangeOp.trans hsw hrec.1,
        hrec.2.1.trans (lswap_perm l b1 (c1 - 1)),
        hrec.2.2.1, hrec.2.2.2.1, hrec.2.2.2.2.1,
        fun _ => hrec.2.2.2.2.2.1 (by omega), hrec.2.2.2.2.2.2.1,
        hrec.2.2.2.2.2.2.2.1, hrec.2.2.2.2.2.2.2.2⟩

end EdgeOrch

namespace EdgeOrch

/-! ### doPivot: the duplicate-protection loop -/

theorem protRetreatB_spec (l : List deviceScore) (pivot a : ℕ) :
    ∀ b : ℕ, protRetreatB l pivot a b ≤ b ∧
      (a ≤ b → a ≤ protRetreatB l pivot a b) ∧
      (∀ k, protRetreatB l pivot a b ≤ k → k < b →
        (lget l k).score ≤ (lget l pivot).score) ∧
      (a < protRetreatB l pivot a b →
        (lget l pivot).score < (lget l (protRetreatB l pivot a b - 1)).score) := by
  intro b
  induction b with
  | zero =>
    simp only [protRetreatB]
    exact ⟨le_refl 0, fun h => h, fun k h1 h2 => absurd h2 (by omega),
      fun h => absurd h (by omega)⟩
  | succ bb ih =>
    by_cases hc : a < bb + 1 ∧ ¬ lless l bb pivot
    · simp only [protRetreatB, if_pos hc]
      refine ⟨by omega, fun _ => ih.2.1 (by omega), ?_, ih.2.2.2⟩
      intro k h1 h2
      by_cases hkb : k = bb
      · rw [hkb]
        exact le_of_not_lt hc.2
      · exact ih.2.2.1 k h1 (by omega)
    · simp only [protRetreatB, if_neg hc]
      refine ⟨le_refl _, fun h => h, fun k h1 h2 => absurd h2 (by omega), ?_⟩
      intro ha
      have : lless l bb pivot := by
        by_cases h : lless l bb pivot
        · exact h
        · exact absurd ⟨by omega, h⟩ hc
      simpa using this

theorem protAdvanceA_eq_advanceA (l : List deviceScore) (pivot b : ℕ) :
    ∀ (fuel a : ℕ), protAdvanceA l pivot b fuel a = advanceA l pivot b fuel a := by
  intro fuel
  induction fuel with
  | zero => intro a; rfl
  | succ f ih =>
    intro a
    simp only [protAdvanceA, advanceA]
    by_cases hc : a < b ∧ lless l a pivot
    · rw [if_pos hc, if_pos hc, ih]
    · rw [if_neg hc, if_neg hc]

/-- The protect loop: it extends the pivot-equal middle run [t.2, cM)
leftwards while keeping everything in (pivot, t.2) scoring at least v. -/
theorem protectLoop_spec (pivot hi cM : ℕ) :
    ∀ (fuel : ℕ) (l : List deviceScore) (a b : ℕ),
      b ≤ a + fuel →
      pivot + 1 ≤ a → a ≤ b → b ≤ cM → cM ≤ hi → b ≤ hi - 1 → hi ≤ l.length →
      (∀ k, pivot + 1 ≤ k → k < b → (lget l pivot).score ≤ (lget l k).score) →
      (∀ k, b ≤ k → k < cM → (lget l k).score = (lget l pivot).score) →
      RangeOp l (protectLoop pivot fuel l a b).1 (pivot + 1) b ∧
      (protectLoop pivot fuel l a b).1.Perm l ∧
      pivot + 1 ≤ (protectLoop pivot fuel l a b).2 ∧
      (protectLoop pivot fuel l a b).2 ≤ b ∧
      (∀ k, pivot + 1 ≤ k → k < (protectLoop pivot fuel l a b).2 →
        (lget l pivot).score ≤ (lget (protectLoop pivot fuel l a b).1 k).score) ∧
      (∀ k, (protectLoop pivot fuel l a b).2 ≤ k → k < cM →
        (lget (protectLoop pivot fuel l a b).1 k).score = (lget l pivot).score) := by
  intro fuel
  induction fuel with
  | zero =>
    intro l a b hfuel hpa hab hbc hch hbh hhl hPL hPM
    simp only [protectLoop]
    exact ⟨RangeOp.refl l _ _, List.Perm.refl l, by omega, le_refl b, hPL, hPM⟩
  | succ f ih =>
    intro l a b hfuel hpa hab hbc hch hbh hhl hPL hPM
    simp only [protectLoop]
    have hretr := protRetreatB_spec l pivot a b
    set b1 := protRetreatB l pivot a b with hb1def
    have hPM1 : ∀ k, b1 ≤ k → k < cM → (lget l k).score = (lget l pivot).score := by
      intro k h1 h2
      by_cases hkb : k < b
      · exact le_antisymm (hretr.2.2.1 k h1 hkb) (hPL k (by omega) hkb)
      · exact hPM k (by omega) h2
    rw [protAdvanceA_eq_advanceA]
    have hadv := advanceA_spec l pivot b1 b1 a (by omega)
    set a1 := advanceA l pivot b1 b1 a with ha1def
    have hab1 : a ≤ b1 := hretr.2.1 hab
    by_cases hex : a1 ≥ b1
    · rw [if_pos hex]
      dsimp only
      refine ⟨RangeOp.refl l _ _, List.Perm.refl l, by omega, hretr.1, ?_, hPM1⟩
      intro k h1 h2
      exact hPL k h1 (by omega)
    · rw [if_neg hex]
      have ha1b1 : a1 < b1 := by omega
      have hsa1 : (lget l a1).score ≤ (lget l pivot).score := hadv.2.2.2 ha1b1
      have hsa1' : (lget l pivot).score ≤ (lget l a1).score :=
        hPL a1 (by omega) (by omega)
      have hsa1eq : (lget l a1).score = (lget l pivot).score := le_antisymm hsa1 hsa1'
      have hsb1 : (lget l pivot).score < (lget l (b1 - 1)).score :=
        hretr.2.2.2 (by omega)
      have hne : a1 ≠ b1 - 1 := by
        intro h
        rw [h] at hsa1eq
        rw [hsa1eq] at hsb1
        exact lt_irrefl _ hsb1
      have ha1lt : a1 < b1 - 1 := by omega
      have hswap : ∀ k, lget (lswap l a1 (b1 - 1)) k =
          if k = b1 - 1 then lget l a1 else if k = a1 then lget l (b1 - 1) else lget l k := by
        intro k
        exact lget_lswap l a1 (b1 - 1) k (by omega) (by omega)
      have hppiv : lget (lswap l a1 (b1 - 1)) pivot = lget l pivot := by
        rw [hswap pivot, if_neg (by omega), if_neg (by omega)]
      have hPL' : ∀ k, pivot + 1 ≤ k → k < b1 - 1 →
          (lget (lswap l a1 (b1 - 1)) pivot).score ≤ (lget (lswap l a1 (b1 - 1)) k).score := by
        intro k h1 h2
        rw [hppiv]
        by_cases hka1 : k = a1
        · rw [hswap k, if_neg (by omega), if_pos hka1]
          exact le_of_lt hsb1
        · rw [hswap k, if_neg (by omega), if_neg hka1]
          exact hPL k h1 (by omega)
      have hPM' : ∀ k, b1 - 1 ≤ k → k < cM →
          (lget (lswap l a1 (b1 - 1)) k).score = (lget (lswap l a1 (b1 - 1)) pivot).score := by
        intro k h1 h2
        rw [hppiv]
        by_cases hkb1 : k = b1 - 1
        · rw [hswap k, if_pos hkb1]
          exact hsa1eq
        · rw [hswap k, if_neg hkb1, if_neg (by omega)]
          exact hPM1 k (by omega) h2
      have hrec := ih (lswap l a1 (b1 - 1)) (a1 + 1) (b1 - 1)
        (by omega) (by omega) (by omega) (by omega) hch (by omega)
        (by rw [length_lswap]; exact hhl) hPL' hPM'
      rw [hppiv] at hrec
      have hsw : RangeOp l (lswap l a1 (b1 - 1)) (pivot + 1) b :=
        RangeOp.swap (by omega) (by omega) (by omega) (by omega) (by omega)
      exact ⟨RangeOp.trans hsw (RangeOp.mono (le_refl _) (by omega) hrec.1),
        hrec.2.1.trans (lswap_perm l a1 (b1 - 1)),
        hrec.2.2.1, by omega, hrec.2.2.2.2.1, hrec.2.2.2.2.2⟩

end EdgeOrch

namespace EdgeOrch

/-! ### doPivot: median-of-three pivot selection -/

/-- medianOfThree permutes within the range and leaves the median of the
three inspected cells at m1: the score at m0 dominates m1's, which
dominates m2's. -/
theorem medianOfThree_spec (l : List deviceScore) (lo hi m1 m0 m2 : ℕ)
    (hm1 : lo ≤ m1) (hm1' : m1 < hi) (hm0 : lo ≤ m0) (hm0' : m0 < hi)
    (hm2 : lo ≤ m2) (hm2' : m2 < hi) (hl : hi ≤ l.length)
    (hne10 : m1 ≠ m0) (hne21 : m2 ≠ m1) (hne20 : m2 ≠ m0) :
    RangeOp l (medianOfThree l m1 m0 m2) lo hi ∧
    (medianOfThree l m1 m0 m2).Perm l ∧
    (lget (medianOfThree l m1 m0 m2) m1).score ≤ (lget (medianOfThree l m1 m0 m2) m0).score ∧
    (lget (medianOfThree l m1 m0 m2) m2).score ≤ (lget (medianOfThree l m1 m0 m2) m1).score := by
  have hb1 : m1 < l.length := by omega
  have hb0 : m0 < l.length := by omega
  have hb2 : m2 < l.length := by omega
  unfold medianOfThree
  by_cases hA : lless l m1 m0
  · rw [if_pos hA]
    have hA' : (lget l m0).score < (lget l m1).score := hA
    have e1 : ∀ k, lget (lswap l m1 m0) k =
        if k = m0 then lget l m1 else if k = m1 then lget l m0 else lget l k :=
      fun k => lget_lswap l m1 m0 k hb1 hb0
    have v1m1 : lget (lswap l m1 m0) m1 = lget l m0 := by
      rw [e1 m1, if_neg hne10, if_pos (Eq.refl m1)]
    have v1m0 : lget (lswap l m1 m0) m0 = lget l m1 := by
      rw [e1 m0, if_pos (Eq.refl m0)]
    have v1m2 : lget (lswap l m1 m0) m2 = lget l m2 := by
      rw [e1 m2, if_neg hne20, if_neg hne21]
    have hro1 : RangeOp l (lswap l m1 m0) lo hi :=
      RangeOp.swap hm1 hm1' hm0 hm0' hl
    have hlen1 : (lswap l m1 m0).length = l.length := length_lswap l m1 m0
    by_cases hB : lless (lswap l m1 m0) m2 m1
    · rw [if_pos hB]
      have hB' : (lget l m0).score < (lget l m2).score := by
        have := hB
        unfold lless at this
        rw [v1m1, v1m2] at this
        exact this
      have e2 : ∀ k, lget (lswap (lswap l m1 m0) m2 m1) k =
          if k = m1 then lget (lswap l m1 m0) m2
          else if k = m2 then lget (lswap l m1 m0) m1
          else lget (lswap l m1 m0) k :=
        fun k => lget_lswap (lswap l m1 m0) m2 m1 k (by omega) (by omega)
      have v2m1 : lget (lswap (lswap l m1 m0) m2 m1) m1 = lget l m2 := by
        rw [e2 m1, if_pos (Eq.refl m1), v1m2]
      have v2m2 : lget (lswap (lswap l m1 m0) m2 m1) m2 = lget l m0 := by
        rw [e2 m2, if_neg hne21, if_pos (Eq.refl m2), v1m1]
      have v2m0 : lget (lswap (lswap l m1 m0) m2 m1) m0 = lget l m1 := by
        rw [e2 m0, if_neg (Ne.symm hne10), if_neg (Ne.symm hne20), v1m0]
      have hro2 : RangeOp l (lswap (lswap l m1 m0) m2 m1) lo hi :=
        RangeOp.trans hro1 (RangeOp.swap hm2 hm2' hm1 hm1' (by omega))
      have hperm2 : (lswap (lswap l m1 m0) m2 m1).Perm l :=
        (lswap_perm (lswap l m1 m0) m2 m1).trans (lswap_perm l m1 m0)
      have hlen2 : (lswap (lswap l m1 m0) m2 m1).length = l.length := by
        rw [length_lswap, hlen1]
      by_cases hC : lless (lswap (lswap l m1 m0) m2 m1) m1 m0
      · rw [if_pos hC]
        have hC' : (lget l m1).score < (lget l m2).score := by
          have := hC
          unfold lless at this
          rw [v2m1, v2m0] at this
          exact this
        have e3 : ∀ k, lget (lswap (lswap (lswap l m1 m0) m2 m1) m1 m0) k =
            if k = m0 then lget (lswap (lswap l m1 m0) m2 m1) m1
            else if k = m1 then lget (lswap (lswap l m1 m0) m2 m1) m0
            else lget (lswap (lswap l m1 m0) m2 m1) k :=
          fun k => lget_lswap (lswap (lswap l m1 m0) m2 m1) m1 m0 k (by omega) (by omega)
        have v3m0 : lget (lswap (lswap (lswap l m1 m0) m2 m1) m1 m0) m0 = lget l m2 := by
          rw [e3 m0, if_pos (Eq.refl m0), v2m1]
        have v3m1 : lget (lswap (lswap (lswap l m1 m0) m2 m1) m1 m0) m1 = lget l m1 := by
          rw [e3 m1, if_neg hne10, if_pos (Eq.refl m1), v2m0]
        have v3m2 : lget (lswap (lswap (lswap l m1 m0) m2 m1) m1 m0) m2 = lget l m0 := by
          rw [e3 m2, if_neg hne20, if_neg hne21, v2m2]
        refine ⟨RangeOp.trans hro2 (RangeOp.swap hm1 hm1' hm0 hm0' (by omega)), ?_, ?_, ?_⟩
        · exact (lswap_perm (lswap (lswap l m1 m0) m2 m1) m1 m0).trans hperm2
        · rw [v3m1, v3m0]; exact le_of_lt hC'
        · rw [v3m2, v3m1]; exact le_of_lt hA'
      · rw [if_neg hC]
        have hC' : (lget l m2).score ≤ (lget l m1).score := by
          have := le_of_not_lt hC
          unfold lless at this
          rw [v2m1, v2m0] at this
          exact this
        refine ⟨hro2, hperm2, ?_, ?_⟩
        · rw [v2m1, v2m0]; exact hC'
        · rw [v2m2, v2m1]; exact le_of_lt hB'
    · rw [if_neg hB]
      have hB' : (lget l m2).score ≤ (lget l m0).score := by
        have := le_of_not_lt hB
        unfold lless at this
        rw [v1m1, v1m2] at this
        exact this
      refine ⟨hro1, lswap_perm l m1 m0, ?_, ?_⟩
      · rw [v1m1, v1m0]; exact le_of_lt hA'
      · rw [v1m2, v1m1]; exact hB'
  · rw [if_neg hA]
    have hA' : (lget l m1).score ≤ (lget l m0).score := le_of_not_lt hA
    by_cases hB : lless l m2 m1
    · rw [if_pos hB]
      have hB' : (lget l m1).score < (lget l m2).score := hB
      have e2 : ∀ k, lget (lswap l m2 m1) k =
          if k = m1 then lget l m2 else if k = m2 then lget l m1 else lget l k :=
        fun k => lget_lswap l m2 m1 k hb2 hb1
      have v2m1 : lget (lswap l m2 m1) m1 = lget l m2 := by
        rw [e2 m1, if_pos (Eq.refl m1)]
      have v2m2 : lget (lswap l m2 m1) m2 = lget l m1 := by
        rw [e2 m2, if_neg hne21, if_pos (Eq.refl m2)]
      have v2m0 : lget (lswap l m2 m1) m0 = lget l m0 := by
        rw [e2 m0, if_neg (Ne.symm hne10), if_neg (Ne.symm hne20)]
      have hro2 : RangeOp l (lswap l m2 m1) lo hi :=
        RangeOp.swap hm2 hm2' hm1 hm1' hl
      have hlen2' : (lswap l m2 m1).length = l.length := length_lswap l m2 m1
      by_cases hC : lless (lswap l m2 m1) m1 m0
      · rw [if_pos hC]
        have hC' : (lget l m0).score < (lget l m2).score := by
          have := hC
          unfold lless at this
          rw [v2m1, v2m0] at this
          exact this
        have e3 : ∀ k, lget (lswap (lswap l m2 m1) m1 m0) k =
            if k = m0 then lget (lswap l m2 m1) m1
            else if k = m1 then lget (lswap l m2 m1) m0
            else lget (lswap l m2 m1) k :=
          fun k => lget_lswap (lswap l m2 m1) m1 m0 k (by omega) (by omega)
        have v3m0 : lget (lswap (lswap l m2 m1) m1 m0) m0 = lget l m2 := by
          rw [e3 m0, if_pos (Eq.refl m0), v2m1]
        have v3m1 : lget (lswap (lswap l m2 m1) m1 m0) m1 = lget l m0 := by
          rw [e3 m1, if_neg hne10, if_pos (Eq.refl m1), v2m0]
        have v3m2 : lget (lswap (lswap l m2 m1) m1 m0) m2 = lget l m1 := by
          rw [e3 m2, if_neg hne20, if_neg hne21, v2m2]
        refine ⟨RangeOp.trans hro2 (RangeOp.swap hm1 hm1' hm0 hm0' (by omega)), ?_, ?_, ?_⟩
        · exact (lswap_perm (lswap l m2 m1) m1 m0).trans (lswap_perm l m2 m1)
        · rw [v3m1, v3m0]; exact le_of_lt hC'
        · rw [v3m2, v3m1]; exact hA'
      · rw [if_neg hC]
        have hC' : (lget l m2).score ≤ (lget l m0).score := by
          have := le_of_not_lt hC
          unfold lless at this
          rw [v2m1, v2m0] at this
          exact this
        refine ⟨hro2, lswap_perm l m2 m1, ?_, ?_⟩
        · rw [v2m1, v2m0]; exact hC'
        · rw [v2m2, v2m1]; exact le_of_lt hB'
    · rw [if_neg hB]
      have hB' : (lget l m2).score ≤ (lget l m1).score := le_of_not_lt hB
      exact ⟨RangeOp.refl l lo hi, List.Perm.refl l, hA', hB'⟩

end EdgeOrch

namespace EdgeOrch

/-! ### doPivot: the duplicate-detection block -/

/-- doPivotStep, entered at the partition loop's resting point b = c:
whatever branch runs, it yields segments (pivot-exclusive) left ≥ v,
middle = v, right ≤ v, rearranging only within (lo, hi). -/
theorem doPivotStep_spec (l2 : List deviceScore) (lo hi m b c : ℕ)
    (hm : m = (lo + hi) / 2) (hlo : lo + 13 ≤ hi) (hhl : hi ≤ l2.length)
    (hbc : b = c) (hb1 : lo + 1 ≤ b) (hc1 : c ≤ hi - 1)
    (hPB : ∀ k, lo + 1 ≤ k → k < b → (lget l2 lo).score ≤ (lget l2 k).score)
    (hPC : ∀ k, c ≤ k → k < hi - 1 → (lget l2 k).score < (lget l2 lo).score)
    (hmed : (lget l2 (hi - 1)).score ≤ (lget l2 lo).score) :
    RangeOp l2 (doPivotStep l2 lo hi m b c).1 (lo + 1) hi ∧
    (doPivotStep l2 lo hi m b c).1.Perm l2 ∧
    lo + 1 ≤ (doPivotStep l2 lo hi m b c).2.1 ∧
    (doPivotStep l2 lo hi m b c).2.1 ≤ (doPivotStep l2 lo hi m b c).2.2.1 ∧
    (doPivotStep l2 lo hi m b c).2.2.1 ≤ hi ∧
    (doPivotStep l2 lo hi m b c).2.1 ≤ hi - 1 ∧
    (∀ k, lo + 1 ≤ k → k < (doPivotStep l2 lo hi m b c).2.1 →
      (lget l2 lo).score ≤ (lget (doPivotStep l2 lo hi m b c).1 k).score) ∧
    (∀ k, (doPivotStep l2 lo hi m b c).2.1 ≤ k → k < (doPivotStep l2 lo hi m b c).2.2.1 →
      (lget (doPivotStep l2 lo hi m b c).1 k).score = (lget l2 lo).score) ∧
    (∀ k, (doPivotStep l2 lo hi m b c).2.2.1 ≤ k → k < hi →
      (lget (doPivotStep l2 lo hi m b c).1 k).score ≤ (lget l2 lo).score) := by
  subst hbc
  unfold doPivotStep
  by_cases hdup : ¬ (hi - b < 5) ∧ hi - b < (hi - lo) / 4
  · rw [if_pos hdup]
    lift_lets
    extract_lets t1 t2 t3
    have hblo : lo + 10 ≤ b := by omega
    have hmb : m + 3 ≤ b := by omega
    have hmlo : lo + 6 ≤ m := by omega
    have hmhi : m + 6 ≤ hi := by omega
    -- stage t1
    have ht1 : RangeOp l2 t1.1 (lo + 1) hi ∧ t1.1.Perm l2 ∧ t1.1.length = l2.length ∧
        (b ≤ t1.2.1 ∧ t1.2.1 ≤ b + 1 ∧ t1.2.1 ≤ hi) ∧
        (∀ k, lo + 1 ≤ k → k < b → lget t1.1 k = lget l2 k) ∧
        (∀ k, b ≤ k → k < t1.2.1 → (lget t1.1 k).score = (lget l2 lo).score) ∧
        (∀ k, t1.2.1 ≤ k → k < hi → (lget t1.1 k).score ≤ (lget l2 lo).score) := by
      by_cases hc : ¬ lless l2 lo (hi - 1)
      · have ht1eq : t1 = (lswap l2 b (hi - 1), b + 1, 1) := by
          simp only [t1]; rw [if_pos hc]
        rw [ht1eq]
        dsimp only
        have heq : (lget l2 (hi - 1)).score = (lget l2 lo).score :=
          le_antisymm hmed (le_of_not_lt hc)
        have hswap : ∀ k, lget (lswap l2 b (hi - 1)) k =
            if k = hi - 1 then lget l2 b else if k = b then lget l2 (hi - 1) else lget l2 k :=
          fun k => lget_lswap l2 b (hi - 1) k (by omega) (by omega)
        refine ⟨RangeOp.swap (by omega) (by omega) (by omega) (by omega) (by omega),
          lswap_perm l2 b (hi - 1), length_lswap l2 b (hi - 1),
          ⟨by omega, by omega, by omega⟩, ?_, ?_, ?_⟩
        · intro k h1 h2
          rw [hswap k, if_neg (by omega), if_neg (by omega)]
        · intro k h1 h2
          have hkb : k = b := by omega
          by_cases hbh1 : b = hi - 1
          · rw [hswap k, if_pos (by omega), hbh1]
            exact heq
          · rw [hswap k, if_neg (by omega), if_pos hkb]
            exact heq
        · intro k h1 h2
          by_cases hkh : k = hi - 1
          · by_cases hbh1 : b = hi - 1
            · omega
            · rw [hswap k, if_pos hkh]
              exact le_of_lt (hPC b (le_refl b) (by omega))
          · rw [hswap k, if_neg hkh, if_neg (by omega)]
            exact le_of_lt (hPC k (by omega) (by omega))
      · have ht1eq : t1 = (l2, b, 0) := by
          simp only [t1]; rw [if_neg hc]
        rw [ht1eq]
        dsimp only
        have hlt : (lget l2 (hi - 1)).score < (lget l2 lo).score := by
          simpa [lless] using not_not.mp hc
        refine ⟨RangeOp.refl l2 _ _, List.Perm.refl l2, rfl,
          ⟨le_refl b, by omega, by omega⟩, fun k _ _ => rfl,
          fun k h1 h2 => by omega, ?_⟩
        intro k h1 h2
        by_cases hkh : k = hi - 1
        · rw [hkh]; exact le_of_lt hlt
        · exact le_of_lt (hPC k h1 (by omega))
    -- stage t2
    have ht2 : (t2.1 = b - 1 ∨ t2.1 = b) ∧
        (∀ k, t2.1 ≤ k → k < b → (lget t1.1 k).score = (lget l2 lo).score) := by
      by_cases hc : ¬ lless t1.1 (b - 1) lo
      · have ht2eq : t2 = (b - 1, t1.2.2 + 1) := by
          simp only [t2]; rw [if_pos hc]
        rw [ht2eq]
        dsimp only
        have hv : lget t1.1 lo = lget l2 lo := ht1.1.outside lo (by omega)
        have hvb : lget t1.1 (b - 1) = lget l2 (b - 1) := ht1.2.2.2.2.1 (b - 1) (by omega) (by omega)
        have hge : (lget l2 lo).score ≤ (lget l2 (b - 1)).score := hPB (b - 1) (by omega) (by omega)
        have hle : (lget t1.1 (b - 1)).score ≤ (lget t1.1 lo).score := le_of_not_lt hc
        rw [hvb, hv] at hle
        refine ⟨Or.inl rfl, ?_⟩
        intro k h1 h2
        have hk : k = b - 1 := by omega
        rw [hk, hvb]
        exact le_antisymm hle hge
      · have ht2eq : t2 = (b, t1.2.2) := by
          simp only [t2]; rw [if_neg hc]
        rw [ht2eq]
        dsimp only
        exact ⟨Or.inr rfl, fun k h1 h2 => by omega⟩
    -- stage t3
    have ht3 : RangeOp t1.1 t3.1 (lo + 1) hi ∧ t3.1.Perm t1.1 ∧
        (t3.2.1 = t2.1 - 1 ∨ t3.2.1 = t2.1) ∧
        (∀ k, lo + 1 ≤ k → k < t3.2.1 → (lget l2 lo).score ≤ (lget t3.1 k).score) ∧
        (∀ k, t3.2.1 ≤ k → k < t1.2.1 → (lget t3.1 k).score = (lget l2 lo).score) ∧
        (∀ k, t1.2.1 ≤ k → k < hi → (lget t3.1 k).score ≤ (lget l2 lo).score) := by
      have hv : lget t1.1 lo = lget l2 lo := ht1.1.outside lo (by omega)
      have ht2b : b - 1 ≤ t2.1 ∧ t2.1 ≤ b := by
        rcases ht2.1 with h | h <;> omega
      have hPBt1 : ∀ k, lo + 1 ≤ k → k < b → (lget l2 lo).score ≤ (lget t1.1 k).score := by
        intro k h1 h2
        rw [ht1.2.2.2.2.1 k h1 h2]
        exact hPB k h1 h2
      have hPMt1 : ∀ k, t2.1 ≤ k → k < t1.2.1 → (lget t1.1 k).score = (lget l2 lo).score := by
        intro k h1 h2
        by_cases hkb : k < b
        · exact ht2.2 k h1 hkb
        · exact ht1.2.2.2.2.2.1 k (by omega) h2
      by_cases hc : ¬ lless t1.1 m lo
      · have ht3eq : t3 = (lswap t1.1 m (t2.1 - 1), t2.1 - 1, t2.2 + 1) := by
          simp only [t3]; rw [if_pos hc]
        rw [ht3eq]
        dsimp only
        have hmle : (lget t1.1 m).score ≤ (lget l2 lo).score := by
          have := le_of_not_lt hc
          rw [hv] at this
          exact this
        have hmge : (lget l2 lo).score ≤ (lget t1.1 m).score := hPBt1 m (by omega) (by omega)
        have hmeq : (lget t1.1 m).score = (lget l2 lo).score := le_antisymm hmle hmge
        have hswap : ∀ k, lget (lswap t1.1 m (t2.1 - 1)) k =
            if k = t2.1 - 1 then lget t1.1 m
            else if k = m then lget t1.1 (t2.1 - 1) else lget t1.1 k :=
          fun k => lget_lswap t1.1 m (t2.1 - 1) k (by omega) (by omega)
        refine ⟨RangeOp.swap (by omega) (by omega) (by omega) (by omega) (by omega),
          lswap_perm t1.1 m (t2.1 - 1), Or.inl rfl, ?_, ?_, ?_⟩
        · intro k h1 h2
          by_cases hkm : k = m
          · rw [hswap k, if_neg (by omega), if_pos hkm]
            exact hPBt1 (t2.1 - 1) (by omega) (by omega)
          · rw [hswap k, if_neg (by omega), if_neg hkm]
            exact hPBt1 k h1 (by omega)
        · intro k h1 h2
          by_cases hkt : k = t2.1 - 1
          · rw [hswap k, if_pos hkt]
            exact hmeq
          · rw [hswap k, if_neg hkt, if_neg (by omega)]
            exact hPMt1 k (by omega) h2
        · intro k h1 h2
          rw [hswap k, if_neg (by omega), if_neg (by omega)]
          exact ht1.2.2.2.2.2.2 k h1 h2
      · have ht3eq : t3 = (t1.1, t2.1, t2.2) := by
          simp only [t3]; rw [if_neg hc]
        rw [ht3eq]
        dsimp only
        exact ⟨RangeOp.refl t1.1 _ _, List.Perm.refl t1.1, Or.inr rfl,
          fun k h1 h2 => hPBt1 k h1 (by omega),
          fun k h1 h2 => hPMt1 k h1 h2,
          fun k h1 h2 => ht1.2.2.2.2.2.2 k h1 h2⟩
    dsimp only
    refine ⟨RangeOp.trans ht1.1 ht3.1, ht3.2.1.trans ht1.2.1, ?_, ?_, by omega, ?_,
      ht3.2.2.2.1, ht3.2.2.2.2.1, ht3.2.2.2.2.2⟩
    · rcases ht3.2.2.1 with h | h <;> rcases ht2.1 with h2 | h2 <;> omega
    · rcases ht3.2.2.1 with h | h <;> rcases ht2.1 with h2 | h2 <;> omega
    · rcases ht3.2.2.1 with h | h <;> rcases ht2.1 with h2 | h2 <;> omega
  · rw [if_neg hdup]
    dsimp only
    refine ⟨RangeOp.refl l2 _ _, List.Perm.refl l2, hb1, le_refl b, by omega, hc1,
      hPB, fun k h1 h2 => by omega, ?_⟩
    intro k h1 h2
    by_cases hkh : k = hi - 1
    · rw [hkh]; exact hmed
    · exact le_of_lt (hPC k h1 (by omega))

end EdgeOrch

namespace EdgeOrch

/-! ### doPivot: the protect pass and the final pivot placement -/

/-- doPivotFinish takes a three-way split (left at least v, middle equal
to v, right at most v) and swaps the pivot cell into the middle,
returning (data, midlo, midhi) with left at least v on [lo, midlo),
exactly v on [midlo, midhi), at most v on [midhi, hi). -/
theorem doPivotFinish_spec (l3 : List deviceScore) (bM c3 : ℕ) (doProt : Bool)
    (lo hi : ℕ) (v : ℚ) (hv : (lget l3 lo).score = v)
    (hb1 : lo + 1 ≤ bM) (hbc : bM ≤ c3) (hc3 : c3 ≤ hi)
    (hbh : bM ≤ hi - 1) (hhl : hi ≤ l3.length)
    (hPL : ∀ k, lo + 1 ≤ k → k < bM → v ≤ (lget l3 k).score)
    (hPM : ∀ k, bM ≤ k → k < c3 → (lget l3 k).score = v)
    (hPC : ∀ k, c3 ≤ k → k < hi → (lget l3 k).score ≤ v) :
    RangeOp l3 (doPivotFinish (l3, bM, c3, doProt) lo).1 lo hi ∧
    (doPivotFinish (l3, bM, c3, doProt) lo).1.Perm l3 ∧
    lo ≤ (doPivotFinish (l3, bM, c3, doProt) lo).2.1 ∧
    (doPivotFinish (l3, bM, c3, doProt) lo).2.1 < (doPivotFinish (l3, bM, c3, doProt) lo).2.2 ∧
    (doPivotFinish (l3, bM, c3, doProt) lo).2.2 = c3 ∧
    (∀ k, lo ≤ k → k < (doPivotFinish (l3, bM, c3, doProt) lo).2.1 →
      v ≤ (lget (doPivotFinish (l3, bM, c3, doProt) lo).1 k).score) ∧
    (∀ k, (doPivotFinish (l3, bM, c3, doProt) lo).2.1 ≤ k →
      k < (doPivotFinish (l3, bM, c3, doProt) lo).2.2 →
      (lget (doPivotFinish (l3, bM, c3, doProt) lo).1 k).score = v) ∧
    (∀ k, (doPivotFinish (l3, bM, c3, doProt) lo).2.2 ≤ k → k < hi →
      (lget (doPivotFinish (l3, bM, c3, doProt) lo).1 k).score ≤ v) := by
  have hfin : ∃ fin : List deviceScore × ℕ,
      doPivotFinish (l3, bM, c3, doProt) lo = (lswap fin.1 lo (fin.2 - 1), fin.2 - 1, c3) ∧
      RangeOp l3 fin.1 (lo + 1) bM ∧ fin.1.Perm l3 ∧
      lo + 1 ≤ fin.2 ∧ fin.2 ≤ bM ∧
      (∀ k, lo + 1 ≤ k → k < fin.2 → v ≤ (lget fin.1 k).score) ∧
      (∀ k, fin.2 ≤ k → k < c3 → (lget fin.1 k).score = v) := by
    cases doProt with
    | false =>
      refine ⟨(l3, bM), rfl, RangeOp.refl l3 _ _, List.Perm.refl l3,
        hb1, le_refl bM, hPL, hPM⟩
    | true =>
      have hp := protectLoop_spec lo hi c3 bM l3 (lo + 1) bM
        (by omega) (le_refl _) hb1 hbc hc3 hbh hhl
        (fun k h1 h2 => by rw [hv]; exact hPL k h1 h2)
        (fun k h1 h2 => by rw [hv]; exact hPM k h1 h2)
      rw [hv] at hp
      refine ⟨protectLoop lo bM l3 (lo + 1) bM, ?_, hp.1, hp.2.1,
        hp.2.2.1, hp.2.2.2.1, hp.2.2.2.2.1, hp.2.2.2.2.2⟩
      show doPivotFinish (l3, bM, c3, true) lo = _
      unfold doPivotFinish
      rfl
  obtain ⟨fin, heq, hro, hperm, hw1, hw2, hQ1, hQ2⟩ := hfin
  rw [heq]
  dsimp only
  have hlen : fin.1.length = l3.length := hro.length_eq
  have hfl : lget fin.1 lo = lget l3 lo := hro.outside lo (Or.inl (by omega))
  have hout : ∀ k, bM ≤ k → lget fin.1 k = lget l3 k :=
    fun k hk => hro.outside k (Or.inr hk)
  have hswap : ∀ k, lget (lswap fin.1 lo (fin.2 - 1)) k =
      if k = fin.2 - 1 then lget fin.1 lo
      else if k = lo then lget fin.1 (fin.2 - 1) else lget fin.1 k :=
    fun k => lget_lswap fin.1 lo (fin.2 - 1) k (by omega) (by omega)
  refine ⟨RangeOp.trans (RangeOp.mono (by omega) (by omega) hro)
      (RangeOp.swap (le_refl lo) (by omega) (by omega) (by omega) (by omega)),
    (lswap_perm fin.1 lo (fin.2 - 1)).trans hperm,
    by omega, by omega, rfl, ?_, ?_, ?_⟩
  · intro k h1 h2
    by_cases hklo : k = lo
    · rw [hswap k, if_neg (by omega), if_pos hklo]
      exact hQ1 (fin.2 - 1) (by omega) (by omega)
    · rw [hswap k, if_neg (by omega), if_neg hklo]
      exact hQ1 k (by omega) (by omega)
  · intro k h1 h2
    by_cases hkw : k = fin.2 - 1
    · rw [hswap k, if_pos hkw, hfl, hv]
    · rw [hswap k, if_neg hkw, if_neg (by omega)]
      exact hQ2 k (by omega) h2
  · intro k h1 h2
    rw [hswap k, if_neg (by omega), if_neg (by omega), hout k (by omega)]
    exact hPC k h1 h2

end EdgeOrch

namespace EdgeOrch

/-! ### doPivot assembled -/

/-- The ninther prelude only permutes inside the range. -/
theorem pivotPrelude_spec (l : List deviceScore) (lo hi : ℕ) (hhl : hi ≤ l.length) :
    RangeOp l (pivotPrelude l lo hi) lo hi ∧ (pivotPrelude l lo hi).Perm l := by
  unfold pivotPrelude
  by_cases h40 : hi - lo > 40
  · rw [if_pos h40]
    lift_lets
    extract_lets m s la lb
    have hm : m = (lo + hi) / 2 := rfl
    have hs : s = (hi - lo) / 8 := rfl
    have h1 := medianOfThree_spec l lo hi lo (lo + s) (lo + 2 * s)
      (le_refl lo) (by omega) (by omega) (by omega) (by omega) (by omega) hhl
      (by omega) (by omega) (by omega)
    have hla : la = medianOfThree l lo (lo + s) (lo + 2 * s) := rfl
    rw [← hla] at h1
    have hlal : hi ≤ la.length := by rw [h1.1.length_eq]; exact hhl
    have h2 := medianOfThree_spec la lo hi m (m - s) (m + s)
      (by omega) (by omega) (by omega) (by omega) (by omega) (by omega) hlal
      (by omega) (by omega) (by omega)
    have hlb : lb = medianOfThree la m (m - s) (m + s) := rfl
    rw [← hlb] at h2
    have hlbl : hi ≤ lb.length := by rw [h2.1.length_eq]; exact hlal
    have h3 := medianOfThree_spec lb lo hi (hi - 1) (hi - 1 - s) (hi - 1 - 2 * s)
      (by omega) (by omega) (by omega) (by omega) (by omega) (by omega) hlbl
      (by omega) (by omega) (by omega)
    exact ⟨RangeOp.trans h1.1 (RangeOp.trans h2.1 h3.1),
      (h3.2.1.trans h2.2.1).trans h1.2.1⟩
  · rw [if_neg h40]
    exact ⟨RangeOp.refl l lo hi, List.Perm.refl l⟩

/-- doPivot permutes only inside [lo, hi) and splits it at (midlo, midhi):
some pivot value v bounds the left segment from below, fills the middle,
and bounds the right segment from above. -/
theorem doPivot_spec (l : List deviceScore) (lo hi : ℕ)
    (hlo : lo + 13 ≤ hi) (hhl : hi ≤ l.length) :
    RangeOp l (doPivot l lo hi).1 lo hi ∧
    (doPivot l lo hi).1.Perm l ∧
    lo ≤ (doPivot l lo hi).2.1 ∧
    (doPivot l lo hi).2.1 < (doPivot l lo hi).2.2 ∧
    (doPivot l lo hi).2.2 ≤ hi ∧
    ∃ v : ℚ,
      (∀ k, lo ≤ k → k < (doPivot l lo hi).2.1 →
        v ≤ (lget (doPivot l lo hi).1 k).score) ∧
      (∀ k, (doPivot l lo hi).2.1 ≤ k → k < (doPivot l lo hi).2.2 →
        (lget (doPivot l lo hi).1 k).score = v) ∧
      (∀ k, (doPivot l lo hi).2.2 ≤ k → k < hi →
        (lget (doPivot l lo hi).1 k).score ≤ v) := by
  unfold doPivot
  lift_lets
  extract_lets m l1 pivot a t
  have hm : m = (lo + hi) / 2 := rfl
  have hpiv : pivot = lo := rfl
  have hpre := pivotPrelude_spec l lo hi hhl
  have hprel : hi ≤ (pivotPrelude l lo hi).length := by
    rw [hpre.1.length_eq]; exact hhl
  have hp1 := medianOfThree_spec (pivotPrelude l lo hi) lo hi lo m (hi - 1)
    (le_refl lo) (by omega) (by omega) (by omega) (by omega) (by omega) hprel
    (by omega) (by omega) (by omega)
  have hl1 : l1 = medianOfThree (pivotPrelude l lo hi) lo m (hi - 1) := rfl
  rw [← hl1] at hp1
  have hl1l : hi ≤ l1.length := by rw [hp1.1.length_eq]; exact hprel
  have hadv := advanceA_spec l1 lo (hi - 1) (hi - 1) (lo + 1) (by omega)
  have ha : a = advanceA l1 lo (hi - 1) (hi - 1) (lo + 1) := by
    simp only [a, hpiv]
  rw [← ha] at hadv
  have ha1 : lo + 1 ≤ a := hadv.1
  have ha2 : a ≤ hi - 1 := hadv.2.1 (by omega)
  have hpart := partitionLoop_spec lo hi (hi - 1) l1 a (hi - 1)
    (by omega) ha1 (by omega) (le_refl _) hl1l
    (fun k h1 h2 => le_of_lt (hadv.2.2.1 k h1 h2))
    (fun k h1 h2 => absurd (h1.trans_lt h2) (lt_irrefl _))
  have ht : t = partitionLoop lo (hi - 1) l1 a (hi - 1) := by
    simp only [t, hpiv]
  rw [← ht] at hpart
  have htl : hi ≤ t.1.length := by rw [hpart.1.length_eq]; exact hl1l
  have htlo : lget t.1 lo = lget l1 lo := hpart.1.outside lo (Or.inl (by omega))
  have hthi : lget t.1 (hi - 1) = lget l1 (hi - 1) := hpart.1.outside (hi - 1) (Or.inr (le_refl _))
  have hbc : t.2.1 = t.2.2 := hpart.2.2.2.2.2.1 (by omega)
  have hstep := doPivotStep_spec t.1 lo hi m t.2.1 t.2.2 hm hlo htl hbc
    hpart.2.2.1 (hbc ▸ hpart.2.2.2.2.2.2.1)
    (fun k h1 h2 => by rw [htlo]; exact hpart.2.2.2.2.2.2.2.1 k h1 h2)
    (fun k h1 h2 => by
      rw [htlo]
      exact hpart.2.2.2.2.2.2.2.2 k h1 h2)
    (by rw [htlo, hthi]; exact hp1.2.2.2)
  set st := doPivotStep t.1 lo hi m t.2.1 t.2.2 with hst
  have hstlo : lget st.1 lo = lget l1 lo := by
    rw [hstep.1.outside lo (Or.inl (by omega)), htlo]
  have hstl : hi ≤ st.1.length := by rw [hstep.1.length_eq]; exact htl
  have hfin := doPivotFinish_spec st.1 st.2.1 st.2.2.1 st.2.2.2 lo hi
    (lget l1 lo).score (by rw [hstlo]) hstep.2.2.1 hstep.2.2.2.1 hstep.2.2.2.2.1
    hstep.2.2.2.2.2.1 hstl
    (fun k h1 h2 => by rw [← htlo]; exact hstep.2.2.2.2.2.2.1 k h1 h2)
    (fun k h1 h2 => by rw [← htlo]; exact hstep.2.2.2.2.2.2.2.1 k h1 h2)
    (fun k h1 h2 => by rw [← htlo]; exact hstep.2.2.2.2.2.2.2.2 k h1 h2)
  have hseta : (st.1, st.2.1, st.2.2.1, st.2.2.2) = st := rfl
  rw [hseta] at hfin
  have hroTot : RangeOp l (doPivotFinish st lo).1 lo hi :=
    RangeOp.trans hpre.1 (RangeOp.trans hp1.1
      (RangeOp.trans (RangeOp.mono (by omega) (by omega) hpart.1)
        (RangeOp.trans (RangeOp.mono (by omega) (le_refl hi) hstep.1) hfin.1)))
  refine ⟨hroTot,
    (((hfin.2.1.trans hstep.2.1).trans hpart.2.1).trans hp1.2.1).trans hpre.2,
    hfin.2.2.1, hfin.2.2.2.1, ?_, (lget l1 lo).score,
    hfin.2.2.2.2.2.1, hfin.2.2.2.2.2.2.1, hfin.2.2.2.2.2.2.2⟩
  rw [hfin.2.2.2.2.1]
  exact hstep.2.2.2.2.1

end EdgeOrch

namespace EdgeOrch

/-! ### Heap sort: the binary-heap subtree relation -/

theorem InTree_self (r : ℕ) : InTree r r := by
  unfold InTree
  rw [dif_pos (le_refl r)]

theorem InTree_le (r q : ℕ) (h : InTree r q) : r ≤ q := by
  unfold InTree at h
  by_cases hq : q ≤ r
  · rw [dif_pos hq] at h
    omega
  · omega

theorem InTree_parent (r q : ℕ) (h1 : r < q) (h2 : InTree r ((q - 1) / 2)) : InTree r q := by
  unfold InTree
  rw [dif_neg (by omega)]
  exact h2

theorem InTree_step (r q : ℕ) (h : InTree r q) (hne : q ≠ r) :
    r < q ∧ InTree r ((q - 1) / 2) := by
  unfold InTree at h
  by_cases hq : q ≤ r
  · rw [dif_pos hq] at h
    exact absurd h hne
  · rw [dif_neg hq] at h
    exact ⟨by omega, h⟩

theorem InTree_child (r p c : ℕ) (h : InTree r p) (hc : c = 2 * p + 1 ∨ c = 2 * p + 2) :
    InTree r c := by
  have hrp := InTree_le r p h
  have hpar : (c - 1) / 2 = p := by omega
  exact InTree_parent r c (by omega) (by rw [hpar]; exact h)

theorem InTree_trans (r s : ℕ) : ∀ q, InTree r s → InTree s q → InTree r q := by
  intro q
  induction q using Nat.strong_induction_on with
  | _ q ih =>
    intro h1 h2
    by_cases hqs : q = s
    · rw [hqs]; exact h1
    · obtain ⟨hlt, hp⟩ := InTree_step s q h2 hqs
      have hrs := InTree_le r s h1
      exact InTree_parent r q (by omega) (ih ((q - 1) / 2) (by omega) h1 hp)

theorem InTree_zero : ∀ q, InTree 0 q := by
  intro q
  induction q using Nat.strong_induction_on with
  | _ q ih =>
    by_cases hq : q = 0
    · rw [hq]; exact InTree_self 0
    · exact InTree_parent 0 q (by omega) (ih ((q - 1) / 2) (by omega))

/-- Within a subtree whose edges are all heap-ordered, the root's score
bounds every member's score from below. -/
theorem heap_le_desc (l : List deviceScore) (first hi s : ℕ)
    (hedge : ∀ p c, InTree s p → c < hi → (c = 2 * p + 1 ∨ c = 2 * p + 2) →
      (lget l (first + p)).score ≤ (lget l (first + c)).score) :
    ∀ q, InTree s q → q < hi → (lget l (first + s)).score ≤ (lget l (first + q)).score := by
  intro q
  induction q using Nat.strong_induction_on with
  | _ q ih =>
    intro hq hqhi
    by_cases hqs : q = s
    · rw [hqs]
    · obtain ⟨hlt, hp⟩ := InTree_step s q hq hqs
      have hparent := ih ((q - 1) / 2) (by omega) hp (by omega)
      exact hparent.trans (hedge ((q - 1) / 2) q hp hqhi (by omega))

end EdgeOrch

namespace EdgeOrch

/-- A list that already has full heap order on the subtree satisfies
SiftConcl against itself. -/
theorem siftConcl_id (l : List deviceScore) (first hi root : ℕ)
    (hfull : ∀ p c, InTree root p → c < hi → (c = 2 * p + 1 ∨ c = 2 * p + 2) →
      (lget l (first + p)).score ≤ (lget l (first + c)).score) :
    SiftConcl l l first hi root :=
  ⟨rfl, List.Perm.refl l, fun _ _ => rfl, hfull, fun _ hP => hP⟩

/-- The swap-and-recurse step of siftDown: swapping the root with its
score-minimal child and restoring the child's subtree yields the full
guarantee for the root's subtree. -/
theorem siftDown_swap_step (hi first fuel : ℕ) (l : List deviceScore) (root chosen : ℕ)
    (hch : chosen = 2 * root + 1 ∨ chosen = 2 * root + 2) (hchhi : chosen < hi)
    (hother : ∀ o, (o = 2 * root + 1 ∨ o = 2 * root + 2) → o < hi →
      (lget l (first + chosen)).score ≤ (lget l (first + o)).score)
    (hcond : (lget l (first + chosen)).score < (lget l (first + root)).score)
    (hfuel : hi ≤ fuel + chosen) (hlen : first + hi ≤ l.length)
    (hheap : HeapExcept l first hi root)
    (IH : ∀ (l2 : List deviceScore) (r2 : ℕ), hi ≤ fuel + r2 → first + hi ≤ l2.length →
      HeapExcept l2 first hi r2 → SiftConcl l2 (siftDownGo fuel l2 r2 hi first) first hi r2) :
    SiftConcl l (siftDownGo fuel (lswap l (first + root) (first + chosen)) chosen hi first)
      first hi root := by
  have hrc : root < chosen := by omega
  set l2 := lswap l (first + root) (first + chosen) with hl2
  have hlen2 : l2.length = l.length := length_lswap l _ _
  have hsw : ∀ k, lget l2 k =
      if k = first + chosen then lget l (first + root)
      else if k = first + root then lget l (first + chosen) else lget l k :=
    fun k => lget_lswap l (first + root) (first + chosen) k (by omega) (by omega)
  have hmem : InTree root chosen := InTree_child root root chosen (InTree_self root) hch
  have hsub : ∀ q, InTree chosen q → InTree root q :=
    fun q h => InTree_trans root chosen q hmem h
  have hchq : ∀ q, InTree chosen q → chosen ≤ q := fun q h => InTree_le chosen q h
  have hheap2 : HeapExcept l2 first hi chosen := by
    intro p c hp hpne hc hcch
    have hpge := hchq p hp
    rw [hsw (first + p), if_neg (by omega), if_neg (by omega),
      hsw (first + c), if_neg (by omega), if_neg (by omega)]
    exact hheap p c (hsub p hp) (by omega) hc hcch
  have hrec := IH l2 chosen hfuel (by omega) hheap2
  have hdesc : ∀ q, InTree chosen q → q < hi →
      (lget l (first + chosen)).score ≤ (lget l (first + q)).score :=
    heap_le_desc l first hi chosen
      (fun p c hp hc hcch =>
        hheap p c (hsub p hp) (by have := hchq p hp; omega) hc hcch)
  have hvl2 : ∀ q, InTree chosen q → q < hi →
      (lget l (first + chosen)).score ≤ (lget l2 (first + q)).score := by
    intro q hq hqhi
    by_cases hqc : q = chosen
    · rw [hqc, hsw, if_pos rfl]
      exact le_of_lt hcond
    · rw [hsw, if_neg (by omega), if_neg (by have := hchq q hq; omega)]
      exact hdesc q hq hqhi
  have hroot3 : lget (siftDownGo fuel l2 chosen hi first) (first + root) = lget l (first + chosen) := by
    rw [hrec.2.2.1 (first + root) (fun q hq _ => by have := hchq q hq; omega),
      hsw, if_neg (by omega), if_pos rfl]
  refine ⟨hrec.1.trans hlen2, hrec.2.1.trans (lswap_perm l _ _), ?_, ?_, ?_⟩
  · intro j hj
    rw [hrec.2.2.1 j (fun q hq hqhi => hj q (hsub q hq) hqhi),
      hsw, if_neg (hj chosen hmem hchhi), if_neg (hj root (InTree_self root) (by omega))]
  · intro p c hp hc hcch
    by_cases hpch : InTree chosen p
    · exact hrec.2.2.2.1 p c hpch hc hcch
    · by_cases hproot : p = root
      · subst hproot
        by_cases hcchosen : c = chosen
        · rw [hcchosen, hroot3]
          exact hrec.2.2.2.2 (fun x => (lget l (first + chosen)).score ≤ x.score)
            hvl2 chosen (InTree_self chosen) (hcchosen ▸ hc)
        · have hcnotin : ¬ InTree chosen c := by
            intro hcc
            by_cases hceq : c = chosen
            · exact hcchosen hceq
            · obtain ⟨hlt, hpstep⟩ := InTree_step chosen c hcc hceq
              have hpc : (c - 1) / 2 = p := by omega
              rw [hpc] at hpstep
              have := InTree_le chosen p hpstep
              omega
          have hc3 : lget (siftDownGo fuel l2 chosen hi first) (first + c) = lget l (first + c) := by
            rw [hrec.2.2.1 (first + c)
                (fun q hq _ => by
                  intro hjq
                  exact hcnotin (by rw [show c = q by omega]; exact hq)),
              hsw, if_neg (by omega), if_neg (by omega)]
          rw [hroot3, hc3]
          exact hother c hcch hc
      · have hcnotin : ¬ InTree chosen c := by
          intro hcc
          by_cases hceq : c = chosen
          · have hpc : (c - 1) / 2 = p := by omega
            have hpc2 : (chosen - 1) / 2 = root := by omega
            omega
          · obtain ⟨hlt, hpstep⟩ := InTree_step chosen c hcc hceq
            have hpc : (c - 1) / 2 = p := by omega
            rw [hpc] at hpstep
            exact hpch hpstep
        have hple := InTree_le root p hp
        have hpnchosen : p ≠ chosen := fun h => hpch (h ▸ InTree_self chosen)
        have hp3 : lget (siftDownGo fuel l2 chosen hi first) (first + p) = lget l (first + p) := by
          rw [hrec.2.2.1 (first + p)
              (fun q hq _ => by
                intro hjq
                exact hpch (by rw [show p = q by omega]; exact hq)),
            hsw, if_neg (by omega), if_neg (by omega)]
        have hc3 : lget (siftDownGo fuel l2 chosen hi first) (first + c) = lget l (first + c) := by
          rw [hrec.2.2.1 (first + c)
              (fun q hq _ => by
                intro hjq
                exact hcnotin (by rw [show c = q by omega]; exact hq)),
            hsw, if_neg (by omega), if_neg (by omega)]
        rw [hp3, hc3]
        exact hheap p c hp hproot hc hcch
  · intro P hP q hq hqhi
    have hP2 : ∀ q', InTree chosen q' → q' < hi → P (lget l2 (first + q')) := by
      intro q' hq' hq'hi
      by_cases hqc : q' = chosen
      · rw [hqc, hsw, if_pos rfl]
        exact hP root (InTree_self root) (by omega)
      · rw [hsw, if_neg (by omega), if_neg (by have := hchq q' hq'; omega)]
        exact hP q' (hsub q' hq') hq'hi
    by_cases hqch : InTree chosen q
    · exact hrec.2.2.2.2 P hP2 q hqch hqhi
    · have hq3 : lget (siftDownGo fuel l2 chosen hi first) (first + q) = lget l2 (first + q) :=
        hrec.2.2.1 (first + q)
          (fun q' hq' _ => by
            intro hjq
            exact hqch (by rw [show q = q' by omega]; exact hq'))
      rw [hq3]
      by_cases hqroot : q = root
      · rw [hqroot, hsw, if_neg (by omega), if_pos rfl]
        exact hP chosen hmem hchhi
      · have hqnc : q ≠ chosen := fun h => hqch (h ▸ InTree_self chosen)
        rw [hsw, if_neg (by omega), if_neg (by omega)]
        exact hP q hq hqhi

end EdgeOrch

namespace EdgeOrch

/-- siftDown(data, root, hi, first) of Go sort restores full heap order on
the subtree of root, touching nothing outside it. -/
theorem siftDownGo_spec (hi first : ℕ) :
    ∀ (fuel : ℕ) (l : List deviceScore) (root : ℕ),
      hi ≤ fuel + root → first + hi ≤ l.length → HeapExcept l first hi root →
      SiftConcl l (siftDownGo fuel l root hi first) first hi root := by
  intro fuel
  induction fuel with
  | zero =>
    intro l root hfuel hlen hheap
    simp only [siftDownGo]
    refine siftConcl_id l first hi root ?_
    intro p c hp hc hcch
    have := InTree_le root p hp
    omega
  | succ f ih =>
    intro l root hfuel hlen hheap
    simp only [siftDownGo]
    by_cases h1 : 2 * root + 1 < hi
    · rw [if_pos h1]
      by_cases h2 : 2 * root + 1 + 1 < hi ∧
          lless l (first + (2 * root + 1)) (first + (2 * root + 1) + 1)
      · rw [if_pos h2]
        have hc1le : (lget l (first + (2 * root + 1 + 1))).score ≤
            (lget l (first + (2 * root + 1))).score := le_of_lt h2.2
        by_cases h3 : lless l (first + root) (first + (2 * root + 1 + 1))
        · rw [if_pos h3]
          exact siftDown_swap_step hi first f l root (2 * root + 1 + 1)
            (Or.inr (by omega)) (by omega)
            (fun o ho hohi => by
              rcases ho with ho | ho
              · rw [ho]; exact hc1le
              · rw [ho])
            h3 (by omega) hlen hheap ih
        · rw [if_neg h3]
          have hro : (lget l (first + root)).score ≤
              (lget l (first + (2 * root + 1 + 1))).score := le_of_not_lt h3
          refine siftConcl_id l first hi root ?_
          intro p c hp hc hcch
          by_cases hpr : p = root
          · rcases hcch with hcc | hcc
            · rw [hcc, hpr]
              exact (hro.trans hc1le)
            · rw [hcc, hpr]
              exact hro.trans (le_of_eq (by rw [show 2 * root + 1 + 1 = 2 * root + 2 from rfl]))
          · exact hheap p c hp hpr hc hcch
      · rw [if_neg h2]
        have hother : 2 * root + 2 < hi →
            (lget l (first + (2 * root + 1))).score ≤
              (lget l (first + (2 * root + 1) + 1)).score := by
          intro hlt
          exact le_of_not_lt (fun hcontra => h2 ⟨by omega, hcontra⟩)
        by_cases h3 : lless l (first + root) (first + (2 * root + 1))
        · rw [if_pos h3]
          exact siftDown_swap_step hi first f l root (2 * root + 1)
            (Or.inl rfl) h1
            (fun o ho hohi => by
              rcases ho with ho | ho
              · rw [ho]
              · rw [ho]
                exact hother (by omega))
            h3 (by omega) hlen hheap ih
        · rw [if_neg h3]
          have hro : (lget l (first + root)).score ≤
              (lget l (first + (2 * root + 1))).score := le_of_not_lt h3
          refine siftConcl_id l first hi root ?_
          intro p c hp hc hcch
          by_cases hpr : p = root
          · rcases hcch with hcc | hcc
            · rw [hcc, hpr]
              exact hro
            · rw [hcc, hpr]
              exact hro.trans (hother (by omega))
          · exact hheap p c hp hpr hc hcch
    · rw [if_neg h1]
      refine siftConcl_id l first hi root ?_
      intro p c hp hc hcch
      have := InTree_le root p hp
      omega

end EdgeOrch

namespace EdgeOrch

/-- The heap-construction loop: sifting roots n-1, n-2, ..., 0 turns the
suffix-heap property (all edges with parent at least n ordered) into a
full heap on [0, hi). -/
theorem heapifyLoop_spec (hi first : ℕ) :
    ∀ (n : ℕ) (l : List deviceScore),
      first + hi ≤ l.length →
      (∀ p c, n ≤ p → c < hi → (c = 2 * p + 1 ∨ c = 2 * p + 2) →
        (lget l (first + p)).score ≤ (lget l (first + c)).score) →
      (heapifyLoop hi first n l).length = l.length ∧
      (heapifyLoop hi first n l).Perm l ∧
      (∀ j, j < first ∨ first + hi ≤ j → lget (heapifyLoop hi first n l) j = lget l j) ∧
      (∀ p c, c < hi → (c = 2 * p + 1 ∨ c = 2 * p + 2) →
        (lget (heapifyLoop hi first n l) (first + p)).score ≤
          (lget (heapifyLoop hi first n l) (first + c)).score) ∧
      (∀ P : deviceScore → Prop, (∀ q, q < hi → P (lget l (first + q))) →
        ∀ q, q < hi → P (lget (heapifyLoop hi first n l) (first + q))) := by
  intro n
  induction n with
  | zero =>
    intro l hlen hheap
    exact ⟨rfl, List.Perm.refl l, fun j _ => rfl,
      fun p c hc hcch => hheap p c (Nat.zero_le p) hc hcch, fun P hP => hP⟩
  | succ n ih =>
    intro l hlen hheap
    simp only [heapifyLoop]
    have hsd := siftDownGo_spec hi first hi l n (by omega) hlen
      (fun p c hp hpne hc hcch => by
        have := InTree_le n p hp
        exact hheap p c (by omega) hc hcch)
    set l2 := siftDownGo hi l n hi first with hl2
    have hlen2 : first + hi ≤ l2.length := by rw [hsd.1]; exact hlen
    have hunch : ∀ q, ¬ InTree n q → q < hi → lget l2 (first + q) = lget l (first + q) := by
      intro q hq hqhi
      exact hsd.2.2.1 (first + q)
        (fun q' hq' _ => by
          intro hjq
          exact hq (by rw [show q = q' by omega]; exact hq'))
    have hheap2 : ∀ p c, n ≤ p → c < hi → (c = 2 * p + 1 ∨ c = 2 * p + 2) →
        (lget l2 (first + p)).score ≤ (lget l2 (first + c)).score := by
      intro p c hpn hc hcch
      by_cases hptree : InTree n p
      · exact hsd.2.2.2.1 p c hptree hc hcch
      · have hpne : p ≠ n := fun h => hptree (h ▸ InTree_self n)
        have hcnotin : ¬ InTree n c := by
          intro hcc
          by_cases hceq : c = n
          · omega
          · obtain ⟨hlt, hpstep⟩ := InTree_step n c hcc hceq
            have hpc : (c - 1) / 2 = p := by omega
            rw [hpc] at hpstep
            exact hptree hpstep
        rw [hunch p hptree (by omega), hunch c hcnotin hc]
        exact hheap p c (by omega) hc hcch
    have hrec := ih l2 hlen2 hheap2
    refine ⟨hrec.1.trans hsd.1, hrec.2.1.trans hsd.2.1, ?_, hrec.2.2.2.1, ?_⟩
    · intro j hj
      rw [hrec.2.2.1 j hj]
      exact hsd.2.2.1 j (fun q _ hq => by omega)
    · intro P hP q hq
      refine hrec.2.2.2.2 P ?_ q hq
      intro q' hq'
      by_cases hqtree : InTree n q'
      · exact hsd.2.2.2.2 P (fun q'' _ hq'' => hP q'' hq'') q' hqtree hq'
      · rw [hunch q' hqtree hq']
        exact hP q' hq'

end EdgeOrch

namespace EdgeOrch

/-- The pop phase of heapSort: repeatedly swapping the score-minimal root
to the end of the shrinking prefix turns a heap with a dominated sorted
tail into a fully sorted (descending) range. -/
theorem popLoop_spec (first hi0 : ℕ) :
    ∀ (n : ℕ) (l : List deviceScore),
      first + hi0 ≤ l.length → n ≤ hi0 →
      (∀ p c, c < n → (c = 2 * p + 1 ∨ c = 2 * p + 2) →
        (lget l (first + p)).score ≤ (lget l (first + c)).score) →
      SortedRange l (first + n) (first + hi0) →
      (∀ q r, q < n → n ≤ r → r < hi0 →
        (lget l (first + r)).score ≤ (lget l (first + q)).score) →
      (popLoop first n l).length = l.length ∧
      (popLoop first n l).Perm l ∧
      (∀ j, j < first ∨ first + n ≤ j → lget (popLoop first n l) j = lget l j) ∧
      SortedRange (popLoop first n l) first (first + hi0) ∧
      (∀ P : deviceScore → Prop, (∀ q, q < n → P (lget l (first + q))) →
        ∀ q, q < n → P (lget (popLoop first n l) (first + q))) := by
  intro n
  induction n with
  | zero =>
    intro l hlen hn hheap htail1 htail2
    exact ⟨rfl, List.Perm.refl l, fun j _ => rfl, by simpa using htail1,
      fun P hP q hq => absurd hq (by omega)⟩
  | succ n ih =>
    intro l hlen hn hheap htail1 htail2
    simp only [popLoop]
    have hn1 : n < hi0 := by omega
    have hsw : ∀ k, lget (lswap l first (first + n)) k =
        if k = first + n then lget l first
        else if k = first then lget l (first + n) else lget l k :=
      fun k => lget_lswap l first (first + n) k (by omega) (by omega)
    set l2 := lswap l first (first + n) with hl2
    have hlen2 : l2.length = l.length := length_lswap l _ _
    have hmin : ∀ q, q < n + 1 → (lget l first).score ≤ (lget l (first + q)).score := by
      intro q hq
      exact heap_le_desc l first (n + 1) 0
        (fun p c _ hc hcch => hheap p c hc hcch) q (InTree_zero q) hq
    have hsd := siftDownGo_spec n first n l2 0 (by omega) (by omega)
      (fun p c hp hpne hc hcch => by
        have hp1 : 1 ≤ p := by
          rcases Nat.eq_zero_or_pos p with h | h
          · exact absurd h hpne
          · exact h
        rw [hsw (first + p), if_neg (by omega), if_neg (by omega),
          hsw (first + c), if_neg (by omega), if_neg (by omega)]
        exact hheap p c (by omega) hcch)
    set l3 := siftDownGo n l2 0 n first with hl3
    have hunch3 : ∀ j, j < first ∨ first + n ≤ j → lget l3 j = lget l2 j := by
      intro j hj
      exact hsd.2.2.1 j (fun q _ hq => by omega)
    have hl3n : lget l3 (first + n) = lget l first := by
      rw [hunch3 (first + n) (Or.inr (le_refl _)), hsw, if_pos rfl]
    have hl3tail : ∀ r, n < r → lget l3 (first + r) = lget l (first + r) := by
      intro r hr
      rw [hunch3 (first + r) (Or.inr (by omega)), hsw, if_neg (by omega), if_neg (by omega)]
    have hpref3 : ∀ q, q < n → (lget l first).score ≤ (lget l3 (first + q)).score := by
      intro q hq
      refine hsd.2.2.2.2 (fun x => (lget l first).score ≤ x.score) ?_ q (InTree_zero q) hq
      intro q' _ hq'
      by_cases hq0 : q' = 0
      · rw [hq0, hsw, if_neg (show ¬ (first + 0 = first + n) by omega),
          if_pos (show first + 0 = first from rfl)]
        exact hmin n (by omega)
      · rw [hsw, if_neg (by omega), if_neg (by omega)]
        exact hmin q' (by omega)
    have hrec := ih l3 (by rw [hsd.1, hlen2]; exact hlen) (by omega)
      (fun p c hc hcch => hsd.2.2.2.1 p c (InTree_zero p) hc hcch)
      (by
        intro i j hij1 hij2 hij3
        by_cases hieq : i = first + n
        · have hj : n < j - first := by omega
          have hjeq : j = first + (j - first) := by omega
          rw [hieq, hl3n, hjeq, hl3tail (j - first) hj]
          exact htail2 0 (j - first) (by omega) (by omega) (by omega)
        · have hi' : n < i - first := by omega
          have hj' : n < j - first := by omega
          have hieq2 : i = first + (i - first) := by omega
          have hjeq2 : j = first + (j - first) := by omega
          rw [hieq2, hl3tail (i - first) hi', hjeq2, hl3tail (j - first) hj']
          exact htail1 (first + (i - first)) (first + (j - first)) (by omega) (by omega) (by omega))
      (by
        intro q r hq hr1 hr2
        have hqv : (lget l first).score ≤ (lget l3 (first + q)).score := hpref3 q hq
        by_cases hrn : r = n
        · rw [hrn, hl3n]
          exact hqv
        · rw [hl3tail r (by omega)]
          exact (htail2 0 r (by omega) (by omega) hr2).trans hqv)
    refine ⟨hrec.1.trans (hsd.1.trans hlen2), hrec.2.1.trans (hsd.2.1.trans (lswap_perm l _ _)),
      ?_, hrec.2.2.2.1, ?_⟩
    · intro j hj
      rw [hrec.2.2.1 j (by omega), hunch3 j (by omega), hsw,
        if_neg (by omega), if_neg (by omega)]
    · intro P hP q hq
      by_cases hqn : q = n
      · rw [hqn, hrec.2.2.1 (first + n) (Or.inr (le_refl _)), hl3n]
        exact hP 0 (by omega)
      · refine hrec.2.2.2.2 P ?_ q (by omega)
        intro q' hq'
        refine hsd.2.2.2.2 P ?_ q' (InTree_zero q') hq'
        intro q'' _ hq''
        by_cases hq0 : q'' = 0
        · rw [hq0, hsw, if_neg (show ¬ (first + 0 = first + n) by omega),
            if_pos (show first + 0 = first from rfl)]
          exact hP n (by omega)
        · rw [hsw, if_neg (by omega), if_neg (by omega)]
          exact hP q'' (by omega)

end EdgeOrch

namespace EdgeOrch

/-- heapSort(data, a, b) of Go sort: sorts [a, b) descending by score,
permuting only inside the range. -/
theorem heapSortGo_spec (l : List deviceScore) (a b : ℕ) (hb : b ≤ l.length) (hab : a ≤ b) :
    SortedRange (heapSortGo l a b) a b ∧ RangeOp l (heapSortGo l a b) a b ∧
    (heapSortGo l a b).Perm l := by
  unfold heapSortGo
  have hlen : a + (b - a) ≤ l.length := by omega
  have h1 := heapifyLoop_spec (b - a) a ((b - a - 1) / 2 + 1) l hlen
    (fun p c hp hc hcch => by omega)
  set l1 := heapifyLoop (b - a) a ((b - a - 1) / 2 + 1) l with hl1
  have h2 := popLoop_spec a (b - a) (b - a) l1 (by rw [h1.1]; exact hlen) (le_refl _)
    h1.2.2.2.1 (sortedRange_small l1 (a + (b - a)) (a + (b - a)) (by omega))
    (fun q r hq hr1 hr2 => absurd (hr1.trans_lt hr2) (lt_irrefl _))
  refine ⟨?_, ⟨h2.1.trans h1.1, ?_, ?_⟩, h2.2.1.trans h1.2.1⟩
  · have hs := h2.2.2.2.1
    rw [show a + (b - a) = b by omega] at hs
    exact hs
  · intro j hj
    rw [h2.2.2.1 j (by omega)]
    exact h1.2.2.1 j (by omega)
  · intro P hP k hk1 hk2
    have hkq : k = a + (k - a) := by omega
    rw [hkq]
    refine h2.2.2.2.2 P ?_ (k - a) (by omega)
    intro q hq
    refine h1.2.2.2.2 P ?_ q hq
    intro q' hq'
    exact hP (a + q') (by omega) (by omega)

end EdgeOrch

namespace EdgeOrch

/-- Sortedness survives a RangeOp on a disjoint range. -/
theorem sortedRange_of_outside (l l' : List deviceScore) (a b x y : ℕ)
    (h : RangeOp l l' x y) (hdisj : b ≤ x ∨ y ≤ a) (hs : SortedRange l a b) :
    SortedRange l' a b := by
  intro i j h1 h2 h3
  rw [h.outside i (by omega), h.outside j (by omega)]
  exact hs i j h1 h2 h3

/-- A three-way split — sorted left segment at least v, middle equal to
v, sorted right segment at most v — is sorted as a whole. -/
theorem sorted_of_threeway (L : List deviceScore) (a mlo mhi b : ℕ) (v : ℚ)
    (_hamlo : a ≤ mlo) (_hmm : mlo ≤ mhi) (_hmb : mhi ≤ b)
    (hs1 : SortedRange L a mlo) (hs2 : SortedRange L mhi b)
    (hL : ∀ k, a ≤ k → k < mlo → v ≤ (lget L k).score)
    (hM : ∀ k, mlo ≤ k → k < mhi → (lget L k).score = v)
    (hR : ∀ k, mhi ≤ k → k < b → (lget L k).score ≤ v) :
    SortedRange L a b := by
  intro i j hai hij hjb
  by_cases hi1 : i < mlo
  · by_cases hj1 : j < mlo
    · exact hs1 i j hai hij hj1
    · by_cases hj2 : j < mhi
      · rw [hM j (by omega) hj2]
        exact hL i hai hi1
      · exact (hR j (by omega) hjb).trans (hL i hai hi1)
  · by_cases hi2 : i < mhi
    · by_cases hj2 : j < mhi
      · rw [hM i (by omega) hi2, hM j (by omega) hj2]
      · rw [hM i (by omega) hi2]
        exact hR j (by omega) hjb
    · exact hs2 i j (by omega) hij hjb

/-- quickSort(data, a, b, maxDepth) of Go sort sorts [a, b) descending by
score and permutes only inside the range, for every depth budget. -/
theorem quickSortGo_spec : ∀ (d : ℕ) (l : List deviceScore) (a b : ℕ), b ≤ l.length →
    SortedRange (quickSortGo l a b d) a b ∧ RangeOp l (quickSortGo l a b d) a b ∧
    (quickSortGo l a b d).Perm l := by
  intro d
  induction d with
  | zero =>
    intro l a b hb
    simp only [quickSortGo]
    by_cases h12 : b - a > 12
    · rw [if_pos h12]
      exact heapSortGo_spec l a b hb (by omega)
    · rw [if_neg h12]
      exact smallSortGo_spec l a b hb
  | succ d ih =>
    intro l a b hb
    simp only [quickSortGo]
    by_cases h12 : b - a > 12
    · rw [if_pos h12]
      have hdp := doPivot_spec l a b (by omega) hb
      obtain ⟨hro1, hperm1, hmlo, hmm, hmhi, v, hL, hM, hR⟩ := hdp
      set t := doPivot l a b with htdef
      have hlent : t.1.length = l.length := hro1.length_eq
      by_cases hbr : t.2.1 - a < b - t.2.2
      · rw [if_pos hbr]
        have ih2 := ih t.1 a t.2.1 (by omega)
        set l2 := quickSortGo t.1 a t.2.1 d with hl2
        have hlen2 : l2.length = t.1.length := ih2.2.1.length_eq
        have ih3 := ih l2 t.2.2 b (by omega)
        set l3 := quickSortGo l2 t.2.2 b d with hl3
        refine ⟨?_, ?_, (ih3.2.2.trans ih2.2.2).trans hperm1⟩
        · refine sorted_of_threeway l3 a t.2.1 t.2.2 b v hmlo (le_of_lt hmm) hmhi ?_ ?_ ?_ ?_ ?_
          · exact sortedRange_of_outside l2 l3 a t.2.1 t.2.2 b ih3.2.1 (Or.inl (by omega)) ih2.1
          · exact ih3.1
          · intro k h1 h2
            rw [ih3.2.1.outside k (Or.inl (by omega))]
            exact ih2.2.1.preserve (fun x => v ≤ x.score) hL k h1 h2
          · intro k h1 h2
            rw [ih3.2.1.outside k (Or.inl h2), ih2.2.1.outside k (Or.inr h1)]
            exact hM k h1 h2
          · intro k h1 h2
            refine ih3.2.1.preserve (fun x => x.score ≤ v) ?_ k h1 h2
            intro k' h1' h2'
            rw [ih2.2.1.outside k' (Or.inr (by omega))]
            exact hR k' h1' h2'
        · exact RangeOp.trans hro1 (RangeOp.trans (RangeOp.mono (le_refl a) (by omega) ih2.2.1)
            (RangeOp.mono (by omega) (le_refl b) ih3.2.1))
      · rw [if_neg hbr]
        have ih2 := ih t.1 t.2.2 b (by omega)
        set l2 := quickSortGo t.1 t.2.2 b d with hl2
        have hlen2 : l2.length = t.1.length := ih2.2.1.length_eq
        have ih3 := ih l2 a t.2.1 (by omega)
        set l3 := quickSortGo l2 a t.2.1 d with hl3
        refine ⟨?_, ?_, (ih3.2.2.trans ih2.2.2).trans hperm1⟩
        · refine sorted_of_threeway l3 a t.2.1 t.2.2 b v hmlo (le_of_lt hmm) hmhi ?_ ?_ ?_ ?_ ?_
          · exact ih3.1
          · exact sortedRange_of_outside l2 l3 t.2.2 b a t.2.1 ih3.2.1 (Or.inr (by omega)) ih2.1
          · intro k h1 h2
            refine ih3.2.1.preserve (fun x => v ≤ x.score) ?_ k h1 h2
            intro k' h1' h2'
            rw [ih2.2.1.outside k' (Or.inl (by omega))]
            exact hL k' h1' h2'
          · intro k h1 h2
            rw [ih3.2.1.outside k (Or.inr h1), ih2.2.1.outside k (Or.inl h2)]
            exact hM k h1 h2
          · intro k h1 h2
            rw [ih3.2.1.outside k (Or.inr (by omega))]
            exact ih2.2.1.preserve (fun x => x.score ≤ v) hR k h1 h2
        · exact RangeOp.trans hro1 (RangeOp.trans (RangeOp.mono (by omega) (le_refl b) ih2.2.1)
            (RangeOp.mono (le_refl a) (by omega) ih3.2.1))
    · rw [if_neg h12]
      exact smallSortGo_spec l a b hb

end EdgeOrch

namespace EdgeOrch

/-- sortByScore returns a permutation of its input sorted descending by
score. -/
theorem sortByScore_sorts (l : List deviceScore) :
    (sortByScore l).Perm l ∧ SortedByScoreDesc (sortByScore l) := by
  have h := quickSortGo_spec (maxDepthGo l.length) l 0 l.length (le_refl _)
  have hlen : (sortByScore l).length = l.length := h.2.1.length_eq
  refine ⟨h.2.2, ?_⟩
  rw [SortedByScoreDesc, List.pairwise_iff_getElem]
  intro i j hi hj hij
  have hs := h.1 i j (Nat.zero_le i) hij (by rw [hlen] at hj; exact hj)
  have hi' : i < (quickSortGo l 0 l.length (maxDepthGo l.length)).length := hi
  have hj' : j < (quickSortGo l 0 l.length (maxDepthGo l.length)).length := hj
  rw [lget_eq_getElem?, lget_eq_getElem?, List.getElem?_eq_getElem hj',
    List.getElem?_eq_getElem hi', Option.getD_some, Option.getD_some] at hs
  exact hs

end EdgeOrch

namespace EdgeOrch

/-- Claim C1, corrected: sortByScore (Go sort.Slice with the descending
comparator) returns a permutation of the collected scores ordered by
score descending — but it is neither stable nor idempotent as the spec
claims, since sort.Slice is unstable (see the counterexample): equal-score
entries may lose their arrival order, and re-sorting an already-sorted
list can change it. -/
theorem claimC1_sort_permutes_and_descends (l : List deviceScore) :
    (sortByScore l).Perm l ∧ SortedByScoreDesc (sortByScore l) :=
  sortByScore_sorts l

end EdgeOrch
